import Mathlib

/-!
Chained hash table (`chainedHashTable.c`).

A shallow embedding of the chained hash table of `chainedHashTable.c` and the
properties of its public operations.

The C file keeps the table in four globals (`hashFn`, `table`, `tableSize`,
`itemCount`); here they are the fields of `State`, and every operation takes the
state before the call and returns the state after it.  The outcome of each
`calloc` call is an explicit boolean argument (`true`: a zeroed block was
returned, `false`: `NULL` was returned).
-/

set_option maxRecDepth 8000

namespace ChainedHashTable

/-- A C string: the characters in front of the terminating NUL. -/
abbrev CStr := List Char

/-- The constant `#define KEYLEN 128`. -/
def KEYLEN : Nat := 128

/-- The constant `#define BUCKET_COUNT 20000000`. -/
def BUCKET_COUNT : Int := 20000000

/-- Largest value of a C `int` (32 bit). -/
def INT_MAX : Int := 2147483647

/-- The bucket type `LINKED_LIST_T`, read as the chain of `HASH_ITEM_T` nodes that is
reachable from `head` through `next`; each node is represented by the string in its
`data` buffer.  `head == NULL` is the empty chain, `tail` is the last node of the chain. -/
abbrev LINKED_LIST_T := List CStr

/-- The globals of the C file. `table = none` is the `NULL` table pointer,
`hashFn = none` the `NULL` function pointer. -/
structure State where
  hashFn : Option (CStr → Nat)
  table : Option (List LINKED_LIST_T)
  tableSize : Int
  itemCount : Int

/-- Ways in which a call leaves defined C behaviour. -/
inductive Fault where
  | nullCall
  | outOfBounds
  | intOverflow
  | divByZero
  | nullFile
  deriving DecidableEq, Repr

/-- The values of the globals at program start:
`hashFn = NULL`, `table = NULL`, `tableSize = 0`, `itemCount = 0`. -/
def initialState : State :=
  { hashFn := none, table := none, tableSize := 0, itemCount := 0 }

/-- The function `hashTableSize`: returns `tableSize`. -/
def hashTableSize (s : State) : Int := s.tableSize

/-- The function `hashTableItemCount`: returns `itemCount`. -/
def hashTableItemCount (s : State) : Int := s.itemCount

/-- The function `hashTableFree`.  When `table != NULL` every chain is released, then the
bucket array, and `table`, `tableSize`, `itemCount` are reset; when `table == NULL` nothing
is done.  `hashFn` is not touched. -/
def hashTableFree (s : State) : State :=
  match s.table with
  | some _ => { s with table := none, tableSize := 0, itemCount := 0 }
  | none => s

/-- The call `calloc(size, sizeof(LINKED_LIST_T))`: `NULL` when the allocation fails,
otherwise `size` zeroed buckets (`head == NULL`, `tail == NULL`). -/
def callocTable (size : Int) (alloc : Bool) : Option (List LINKED_LIST_T) :=
  if alloc then some (List.replicate size.toNat []) else none

/-- The function `hashTableInit`: frees the old table, stores `hashFunction` and `size`,
allocates the bucket array, and returns `0` exactly when the allocation returned `NULL`.
The result is the returned `int` and the state after the call. -/
def hashTableInit (s : State) (size : Int) (hashFunction : CStr → Nat) (alloc : Bool) :
    Int × State :=
  let s1 := hashTableFree s
  let s2 := { s1 with hashFn := some hashFunction, tableSize := size }
  let s3 := { s2 with table := callocTable size alloc }
  match s3.table with
  | none => (0, s3)
  | some _ => (1, s3)

/-- The call `strncpy(pItem->data, key, KEYLEN-1)` into a zeroed 128-byte buffer: the
string then held by `data` is the first 127 characters of `key`. -/
def strncpyData (key : CStr) : CStr := key.take (KEYLEN - 1)

/-- The function `hashTableInsert`.  `pCollision` is the value of `*pCollision` before
the call, `alloc` the outcome of the `calloc` of the new item.  The result is the returned
`int`, the state after the call and the value of `*pCollision` after the call. -/
def hashTableInsert (s : State) (key : CStr) (pCollision : Int) (alloc : Bool) :
    Except Fault (Int × State × Int) :=
  match s.table with
  | none => .ok (0, s, pCollision)
  | some t =>
    if alloc = false then .ok (0, s, pCollision)
    else
      let data := strncpyData key
      match s.hashFn with
      | none => .error .nullCall
      | some h =>
        let hashval := h key
        match t[hashval]? with
        | none => .error .outOfBounds
        | some bucket =>
          let r : LINKED_LIST_T × Int :=
            match bucket with
            | [] => ([data], 0)
            | _ :: _ => (bucket ++ [data], 1)
          if s.itemCount = INT_MAX then .error .intOverflow
          else .ok (1, { s with table := some (t.set hashval r.1),
                                itemCount := s.itemCount + 1 }, r.2)

/-- The `while` loop of `hashTableLookup`: walk the chain from its head and stop at the
first item whose `data` compares equal to `key` under `strcmp`. -/
def scanChain : LINKED_LIST_T → CStr → Option CStr
  | [], _ => none
  | data :: next, key => if data = key then some data else scanChain next key

/-- The function `hashTableLookup`.  `some data` is a pointer to the `data` of the item
found, `none` is `NULL`. -/
def hashTableLookup (s : State) (key : CStr) : Except Fault (Option CStr) :=
  match s.table with
  | none => .ok none
  | some t =>
    match s.hashFn with
    | none => .error .nullCall
    | some h =>
      let hashval := h key
      match t[hashval]? with
      | none => .error .outOfBounds
      | some bucket => .ok (scanChain bucket key)

/-- A caller that inserts the keys one after the other, every call returning `1`
(so every item allocation succeeds); `none` as soon as one call does not return `1`. -/
def insertKeys : State → List CStr → Option State
  | s, [] => some s
  | s, key :: rest =>
    match hashTableInsert s key 0 true with
    | .ok (1, s1, _) => insertKeys s1 rest
    | _ => none

/-- States the program can be in: the initial globals, followed by any calls of
`hashTableInit`, `hashTableInsert` (that stay within defined behaviour) and
`hashTableFree`, whatever they return. -/
inductive Reachable : State → Prop
  | start : Reachable initialState
  | init (s : State) (size : Int) (h : CStr → Nat) (alloc : Bool) :
      Reachable s → Reachable (hashTableInit s size h alloc).2
  | insert (s : State) (key : CStr) (c : Int) (alloc : Bool) (r : Int) (s1 : State)
      (c1 : Int) : Reachable s → hashTableInsert s key c alloc = .ok (r, s1, c1) →
      Reachable s1
  | free (s : State) : Reachable s → Reachable (hashTableFree s)

/-- An initialized table whose bucket array is `t` and whose hash function `h` only
returns indices of `t`. -/
def Ready (s : State) (h : CStr → Nat) (t : List LINKED_LIST_T) : Prop :=
  s.hashFn = some h ∧ s.table = some t ∧ ∀ k, h k < t.length

/-- The number of items linked into the chains of the table; `0` when `table == NULL`. -/
def totalEntries (s : State) : Nat :=
  match s.table with
  | none => 0
  | some t => (t.map List.length).sum

/-! The default hash function -/

/-- The value of `key[i]` once converted to `unsigned int` for the addition in
`bitwiseOpHash`: the byte itself below 128; from 128 on `char` is read as signed (as on
the x86 targets of gcc) and the negative value wraps modulo `2^32`. -/
def charToUnsigned (c : Char) : Nat :=
  if c.toNat % 256 < 128 then c.toNat % 256 else 4294967296 - 256 + c.toNat % 256

/-- The value that `tmp = (result & 0xf0000000)` receives in one pass of the loop of
`bitwiseOpHash`, after `result = (result << 4) + key[i]` in 32-bit unsigned arithmetic. -/
def hashTmp (result : Nat) (c : Char) : Nat :=
  (((result <<< 4) + charToUnsigned c) % 4294967296) &&& 0xf0000000

/-- One pass of the loop of `bitwiseOpHash`: shift, add the character, and when the top
nibble is set XOR with it shifted down by 24 and then with the nibble itself. -/
def hashStep (result : Nat) (c : Char) : Nat :=
  let result1 := ((result <<< 4) + charToUnsigned c) % 4294967296
  let tmp := result1 &&& 0xf0000000
  if tmp ≠ 0 then (result1 ^^^ (tmp >>> 24)) ^^^ tmp else result1

/-- The `for` loop of `bitwiseOpHash` over the characters of `key`, from `result = 0`. -/
def hashLoop (key : CStr) : Nat := key.foldl hashStep 0

/-- The function `bitwiseOpHash`; `size` is the value its call of `hashTableSize()`
returns.  In `result % size` the `int` is converted to `unsigned int`; a zero divisor is
a fault. -/
def bitwiseOpHash (size : Int) (key : CStr) : Except Fault Nat :=
  let result := hashLoop key
  let usize := (size % 4294967296).toNat
  if usize = 0 then .error .divByZero else .ok (result % usize)

/-- The pointer `&bitwiseOpHash` as the hash function of a table of `size` slots: while that
table exists `hashTableSize()` returns `size`. -/
def bitwiseOpHashAt (size : Int) (key : CStr) : Nat :=
  match bitwiseOpHash size key with
  | .ok r => r
  | .error _ => 0

/-- The sum `key[0] * 16^(len-1) + ... + key[len-1] * 16^0`, the base-16 polynomial in the
character codes of `key`. -/
def base16Polynomial : CStr → Nat
  | [] => 0
  | c :: rest => c.toNat * 16 ^ rest.length + base16Polynomial rest

/-! The dictionary loader -/

/-- One call `fgets(word, n + 1, wordlist)` when the file is not at its end: at most `n`
characters are read, stopping after a newline; the result is the characters stored in
`word` (a NUL byte of the file is stored like any other character) and the unread rest of
the file. -/
def fgetsLine : Nat → List Char → List Char × List Char
  | 0, rest => ([], rest)
  | _ + 1, [] => ([], [])
  | n + 1, c :: rest =>
    if c = '\n' then ([c], rest)
    else (c :: (fgetsLine n rest).1, (fgetsLine n rest).2)

/-- The contents of `word` after the successive calls `fgets(word, sizeof(word), wordlist)`
of the `while` loop, until `fgets` returns `NULL` at the end of the file; `fuel` bounds the
number of calls. -/
def fgetsAll : Nat → List Char → List (List Char)
  | 0, _ => []
  | _ + 1, [] => []
  | fuel + 1, c :: rest =>
    (fgetsLine 31 (c :: rest)).1 :: fgetsAll fuel (fgetsLine 31 (c :: rest)).2

/-- The lines of a file as `buildDictionary` reads them; every call of `fgets` consumes a
character, so the length of the file is fuel enough. -/
def fgetsLines (file : List Char) : List (List Char) := fgetsAll file.length file

/-- The call `strlen(word)` on the characters that `fgets` stored in `word`: the number
of characters in front of the first NUL. -/
def strlen (word : List Char) : Nat := (word.takeWhile (fun c => c != '\x00')).length

/-- The copy of `word` into `word2` in the loop body of `buildDictionary`, with
`len = strlen(word)`: the first `len - 2` characters, then a NUL at index `len - 2`, which
is outside `word2` when `len < 2`. -/
def copyWord (word : List Char) : Except Fault CStr :=
  let len : Int := strlen word
  if len - 2 < 0 then .error .outOfBounds
  else .ok (word.take (len - 2).toNat)

/-- The `while` loop of `buildDictionary` over the lines read: copy the word, call
`hashTableInsert(word2, &pCollision)` and add `pCollision` to `nb_col`.  `alloc i` is the
outcome of the item allocation of the `i`-th call.  The result is the state and `nb_col`
at the end of the loop. -/
def buildDictionaryLoop : State → List (List Char) → Int → Int → (Nat → Bool) →
    Except Fault (State × Int)
  | s, [], _, nb_col, _ => .ok (s, nb_col)
  | s, word :: rest, pCollision, nb_col, alloc =>
    match copyWord word with
    | .error e => .error e
    | .ok word2 =>
      match hashTableInsert s word2 pCollision (alloc 0) with
      | .error e => .error e
      | .ok (_, s1, c1) =>
        if nb_col + c1 > INT_MAX then .error .intOverflow
        else buildDictionaryLoop s1 rest c1 (nb_col + c1) (fun i => alloc (i + 1))

/-- The function `buildDictionary`.  `file` is the content of `dictionary.txt` (`none`
when `fopen` returns `NULL`), `allocTable` and `alloc` the outcomes of the allocations.
The result is the returned `int`, the state after the call and the final value of the
local `nb_col`. -/
def buildDictionary (s : State) (file : Option (List Char)) (allocTable : Bool)
    (alloc : Nat → Bool) : Except Fault (Int × State × Int) :=
  let s1 := (hashTableInit s BUCKET_COUNT (bitwiseOpHashAt BUCKET_COUNT) allocTable).2
  match file with
  | none => .error .nullFile
  | some content =>
    match buildDictionaryLoop s1 (fgetsLines content) 0 0 alloc with
    | .error e => .error e
    | .ok (s2, nb_col) => .ok (1, s2, nb_col)

/-- A caller that inserts the keys one after the other as the loop of `buildDictionary`
does, passing the same `pCollision` cell to every call, every call returning `1`; the
result is the final state and the value of the collision flag after each call (the
values the loader adds up in `nb_col`).  `none` as soon as one call does not return `1`. -/
def insertKeysFlags : State → List CStr → Int → Option (State × List Int)
  | s, [], _ => some (s, [])
  | s, key :: rest, pCollision =>
    match hashTableInsert s key pCollision true with
    | .ok (1, s1, c1) => (insertKeysFlags s1 rest c1).map (fun r => (r.1, c1 :: r.2))
    | _ => none

/-- The number of buckets of the table that hold an item. -/
def nonEmptyBuckets (s : State) : Nat :=
  match s.table with
  | none => 0
  | some t => t.countP (fun b => !b.isEmpty)

/-! Sample data -/

/-- A sample hash function for a table of ten slots: the key length modulo ten. -/
def lengthHash (key : CStr) : Nat := key.length % 10

/-- The keys of the sample run; the first two share bucket 3. -/
def sampleKeys : List CStr := [['c', 'a', 't'], ['d', 'o', 'g'], ['h', 'o', 'r', 's', 'e']]

/-- The globals after `hashTableInit(10, lengthHash)` and the inserts of `sampleKeys`. -/
def sampleState : State :=
  { hashFn := some lengthHash,
    table := some [[], [], [], [['c', 'a', 't'], ['d', 'o', 'g']], [],
                   [['h', 'o', 'r', 's', 'e']], [], [], [], []],
    tableSize := 10,
    itemCount := 3 }

/-- The globals after `hashTableInit(10, lengthHash)` and the insert of `cat`. -/
def catState : State :=
  { hashFn := some lengthHash,
    table := some [[], [], [], [['c', 'a', 't']], [], [], [], [], [], []],
    tableSize := 10,
    itemCount := 1 }

/-- The globals after `hashTableInit(10, lengthHash)` and the inserts of `cat` and `dog`. -/
def catDogState : State :=
  { hashFn := some lengthHash,
    table := some [[], [], [], [['c', 'a', 't'], ['d', 'o', 'g']], [], [], [], [], [], []],
    tableSize := 10,
    itemCount := 2 }

/-- A key of 128 characters, one more than an item can hold. -/
def longKey : CStr := List.replicate 128 'a'

/-- A sample hash function for a table of two slots: the key length modulo two. -/
def parityHash (key : CStr) : Nat := key.length % 2

/-! Auxiliary facts -/

theorem scanChain_eq_ite (l : LINKED_LIST_T) (key : CStr) :
    scanChain l key = if key ∈ l then some key else none := by
  induction l with
  | nil => simp [scanChain]
  | cons d rest ih =>
    by_cases hd : d = key
    · simp [scanChain, hd]
    · have hd2 : ¬ key = d := fun e => hd e.symm
      simp [scanChain, hd, hd2, ih]

theorem strncpyData_of_short (key : CStr) (hk : key.length < 128) :
    strncpyData key = key := by
  unfold strncpyData KEYLEN
  exact List.take_of_length_le (by omega)

theorem strncpyData_length_le (key : CStr) : (strncpyData key).length ≤ 127 := by
  unfold strncpyData KEYLEN
  simp [List.length_take]

theorem hashTableInsert_ready (s : State) (h : CStr → Nat) (t : List LINKED_LIST_T)
    (key : CStr) (c : Int) (hr : Ready s h t) (hc : s.itemCount ≠ INT_MAX) :
    ∃ bucket, t[h key]? = some bucket ∧
      hashTableInsert s key c true =
        .ok (1, { s with table := some (t.set (h key) (bucket ++ [strncpyData key])),
                         itemCount := s.itemCount + 1 },
             if bucket = [] then 0 else 1) := by
  obtain ⟨hf, ht, hlt⟩ := hr
  have hk := hlt key
  refine ⟨t[h key], List.getElem?_eq_getElem hk, ?_⟩
  unfold hashTableInsert
  simp only [ht, hf, List.getElem?_eq_getElem hk]
  cases hb : t[h key] with
  | nil => simp [hc]
  | cons d rest => simp [hc]

theorem hashTableInsert_cases (s : State) (key : CStr) (c : Int) (alloc : Bool)
    (r : Int) (s1 : State) (c1 : Int)
    (hi : hashTableInsert s key c alloc = .ok (r, s1, c1)) :
    (r = 0 ∧ s1 = s ∧ c1 = c ∧ (s.table = none ∨ alloc = false)) ∨
    (r = 1 ∧ alloc = true ∧ s.itemCount ≠ INT_MAX ∧
      ∃ t h bucket, s.table = some t ∧ s.hashFn = some h ∧ t[h key]? = some bucket ∧
        s1 = { s with table := some (t.set (h key) (bucket ++ [strncpyData key])),
                      itemCount := s.itemCount + 1 } ∧
        c1 = if bucket = [] then 0 else 1) := by
  unfold hashTableInsert at hi
  cases ht : s.table with
  | none =>
    simp only [ht] at hi
    injection hi with hi
    simp only [Prod.mk.injEq] at hi
    obtain ⟨h1, h2, h3⟩ := hi
    exact Or.inl ⟨h1.symm, h2.symm, h3.symm, Or.inl rfl⟩
  | some t =>
    simp only [ht] at hi
    cases alloc with
    | false =>
      simp only [if_true] at hi
      injection hi with hi
      simp only [Prod.mk.injEq] at hi
      obtain ⟨h1, h2, h3⟩ := hi
      exact Or.inl ⟨h1.symm, h2.symm, h3.symm, Or.inr rfl⟩
    | true =>
      simp only [Bool.true_eq_false, if_false] at hi
      cases hf : s.hashFn with
      | none => simp [hf] at hi
      | some h =>
        simp only [hf] at hi
        cases hb : t[h key]? with
        | none => simp [hb] at hi
        | some bucket =>
          simp only [hb] at hi
          by_cases hc : s.itemCount = INT_MAX
          · simp [hc] at hi
          · simp only [hc, if_false] at hi
            injection hi with hi
            simp only [Prod.mk.injEq] at hi
            obtain ⟨h1, h2, h3⟩ := hi
            refine Or.inr ⟨h1.symm, rfl, hc, t, h, bucket, rfl, rfl, hb, ?_, ?_⟩
            · rw [← h2]
              cases bucket <;> rfl
            · rw [← h3]
              cases bucket <;> simp

/-- One successful insert into a ready table: the chain of bucket `h key` gets the
truncated key appended, all else stays. -/
theorem hashTableInsert_step (s : State) (h : CStr → Nat) (t : List LINKED_LIST_T)
    (key : CStr) (c : Int) (alloc : Bool) (s1 : State) (c1 : Int) (hr : Ready s h t)
    (hi : hashTableInsert s key c alloc = .ok (1, s1, c1)) :
    ∃ t1, Ready s1 h t1 ∧ t1.length = t.length ∧
      (∀ i, t1[i]?.getD [] =
        t[i]?.getD [] ++ (if h key = i then [strncpyData key] else [])) ∧
      s1.itemCount = s.itemCount + 1 ∧ s1.tableSize = s.tableSize ∧
      s.itemCount ≠ INT_MAX ∧
      c1 = if t[h key]?.getD [] = [] then 0 else 1 := by
  obtain ⟨hf, ht, hlt⟩ := hr
  rcases hashTableInsert_cases s key c alloc 1 s1 c1 hi with ⟨h0, _⟩ | ⟨_, _, hc, t0, h0, bucket, ht0, hf0, hb, hs1, hc1⟩
  · exact absurd h0 (by decide)
  · rw [ht] at ht0
    rw [hf] at hf0
    injection ht0 with ht0
    injection hf0 with hf0
    subst ht0
    subst hf0
    refine ⟨t.set (h key) (bucket ++ [strncpyData key]), ⟨?_, ?_, ?_⟩, ?_, ?_, ?_, ?_, hc, ?_⟩
    · rw [hs1]; exact hf
    · rw [hs1]
    · intro k; rw [List.length_set]; exact hlt k
    · exact List.length_set ..
    · intro i
      by_cases hik : h key = i
      · subst hik
        simp [List.getElem?_set, hlt key, hb]
      · simp [List.getElem?_set, hik]
    · rw [hs1]
    · rw [hs1]
    · rw [hc1, hb]; rfl

theorem insertKeys_cons (s : State) (key : CStr) (rest : List CStr) (s2 : State)
    (hi : insertKeys s (key :: rest) = some s2) :
    ∃ s1 c1, hashTableInsert s key 0 true = .ok (1, s1, c1) ∧ insertKeys s1 rest = some s2 := by
  unfold insertKeys at hi
  split at hi
  · next s1 c1 heq => exact ⟨s1, c1, heq, hi⟩
  · exact absurd hi (by simp)

/-- The state after a run of successful inserts into a ready table: every chain is the
old chain followed by the truncated keys that hash to it, in insertion order. -/
theorem insertKeys_spec (h : CStr → Nat) (keys : List CStr) :
    ∀ (s : State) (t : List LINKED_LIST_T) (s2 : State), Ready s h t →
      insertKeys s keys = some s2 →
      ∃ t2, Ready s2 h t2 ∧ t2.length = t.length ∧
        (∀ i, t2[i]?.getD [] =
          t[i]?.getD [] ++ (keys.filter (fun k => h k = i)).map strncpyData) ∧
        s2.itemCount = s.itemCount + keys.length ∧ s2.tableSize = s.tableSize := by
  induction keys with
  | nil =>
    intro s t s2 hr hi
    simp only [insertKeys, Option.some.injEq] at hi
    subst hi
    exact ⟨t, hr, rfl, by simp, by simp, rfl⟩
  | cons key rest ih =>
    intro s t s2 hr hi
    obtain ⟨s1, c1, h1, h2⟩ := insertKeys_cons s key rest s2 hi
    obtain ⟨t1, hr1, hl1, hch1, hn1, hsz1, _, _⟩ :=
      hashTableInsert_step s h t key 0 true s1 c1 hr h1
    obtain ⟨t2, hr2, hl2, hch2, hn2, hsz2⟩ := ih s1 t1 s2 hr1 h2
    refine ⟨t2, hr2, hl2.trans hl1, ?_, ?_, hsz2.trans hsz1⟩
    · intro i
      rw [hch2 i, hch1 i]
      by_cases hik : h key = i
      · simp [hik, List.filter_cons]
      · simp [hik, List.filter_cons]
    · rw [hn2, hn1]; simp only [List.length_cons]; push_cast; ring

theorem hashTableLookup_ready (s : State) (h : CStr → Nat) (t : List LINKED_LIST_T)
    (key : CStr) (hr : Ready s h t) :
    hashTableLookup s key =
      .ok (if key ∈ t[h key]?.getD [] then some key else none) := by
  obtain ⟨hf, ht, hlt⟩ := hr
  unfold hashTableLookup
  simp only [ht, hf, List.getElem?_eq_getElem (hlt key), scanChain_eq_ite, Option.getD_some]

theorem hashTableLookup_uninitialized (s : State) (key : CStr) (ht : s.table = none) :
    hashTableLookup s key = .ok none := by
  unfold hashTableLookup
  simp only [ht]

theorem hashTableInit_fst (s : State) (size : Int) (h : CStr → Nat) (alloc : Bool) :
    (hashTableInit s size h alloc).1 = if alloc then 1 else 0 := by
  cases alloc <;> rfl

theorem hashTableInit_snd (s : State) (size : Int) (h : CStr → Nat) (alloc : Bool) :
    (hashTableInit s size h alloc).2 =
      { hashFn := some h, table := callocTable size alloc, tableSize := size,
        itemCount := (hashTableFree s).itemCount } := by
  cases alloc <;> rfl

theorem hashTableInit_alloc (s : State) (size : Int) (h : CStr → Nat) (alloc : Bool)
    (hok : (hashTableInit s size h alloc).1 = 1) : alloc = true := by
  rw [hashTableInit_fst] at hok
  cases alloc with
  | false => exact absurd hok (by decide)
  | true => rfl

theorem hashTableInit_ready (s : State) (size : Int) (h : CStr → Nat)
    (hrange : ∀ k, (h k : Int) < size) :
    Ready (hashTableInit s size h true).2 h (List.replicate size.toNat []) := by
  refine ⟨by rw [hashTableInit_snd], by rw [hashTableInit_snd]; rfl, ?_⟩
  intro k
  have := hrange k
  rw [List.length_replicate]
  omega

theorem getElem?_replicate_nil_getD (n i : Nat) :
    ((List.replicate n ([] : LINKED_LIST_T))[i]?).getD [] = [] := by
  by_cases hi : i < n
  · simp [List.getElem?_replicate, hi]
  · simp [List.getElem?_replicate, hi]

/-- In every reachable state an absent table has no items counted. -/
theorem Reachable.itemCount_of_no_table {s : State} (hs : Reachable s) :
    s.table = none → s.itemCount = 0 := by
  induction hs with
  | start => intro _; rfl
  | init s size h alloc _ ih =>
    intro _
    rw [hashTableInit_snd]
    show (hashTableFree s).itemCount = 0
    unfold hashTableFree
    cases ht : s.table with
    | none => exact ih ht
    | some t => rfl
  | insert s key c alloc r s1 c1 _ hi ih =>
    intro ht1
    rcases hashTableInsert_cases s key c alloc r s1 c1 hi with
      ⟨_, hs1, _, _⟩ | ⟨_, _, _, t, h, bucket, _, _, _, hs1, _⟩
    · rw [hs1] at ht1 ⊢; exact ih ht1
    · rw [hs1] at ht1; exact absurd ht1 (by simp)
  | free s _ ih =>
    intro _
    unfold hashTableFree
    cases ht : s.table with
    | none => exact ih ht
    | some t => rfl

theorem Reachable.itemCount_after_free {s : State} (hs : Reachable s) :
    (hashTableFree s).itemCount = 0 := by
  unfold hashTableFree
  cases ht : s.table with
  | none => exact hs.itemCount_of_no_table ht
  | some t => rfl

/-- A run of inserts into a ready table succeeds as long as the counter stays below
`INT_MAX`. -/
theorem insertKeys_total (h : CStr → Nat) (keys : List CStr) :
    ∀ (s : State) (t : List LINKED_LIST_T), Ready s h t → 0 ≤ s.itemCount →
      s.itemCount + keys.length ≤ INT_MAX → ∃ s2, insertKeys s keys = some s2 := by
  induction keys with
  | nil => intro s t _ _ _; exact ⟨s, rfl⟩
  | cons key rest ih =>
    intro s t hr h0 hle
    simp only [List.length_cons] at hle
    push_cast at hle
    have hc : s.itemCount ≠ INT_MAX := by omega
    obtain ⟨bucket, _, hins⟩ := hashTableInsert_ready s h t key 0 hr hc
    obtain ⟨t1, hr1, _, _, hn1, _, _, _⟩ :=
      hashTableInsert_step s h t key 0 true _ _ hr hins
    obtain ⟨s2, hs2⟩ := ih _ t1 hr1 (by rw [hn1]; omega) (by rw [hn1]; omega)
    refine ⟨s2, ?_⟩
    unfold insertKeys
    rw [hins]
    exact hs2

/-! Insert and lookup -/

/-- Claim C1: after a successful `hashTableInit(size, h)` with `size >= 1` and `h` in range,
followed by successful inserts of distinct keys shorter than 128 characters,
`hashTableLookup` finds every inserted key and the payload returned equals the key. -/
theorem insert_lookup_round_trip (s0 : State) (size : Int) (h : CStr → Nat)
    (keys : List CStr) (alloc : Bool) (s2 : State)
    (hsize : 1 ≤ size) (hrange : ∀ k, (h k : Int) < size)
    (hnodup : keys.Nodup) (hshort : ∀ k ∈ keys, k.length < 128)
    (hinit : (hashTableInit s0 size h alloc).1 = 1)
    (hins : insertKeys (hashTableInit s0 size h alloc).2 keys = some s2) :
    ∀ k ∈ keys, hashTableLookup s2 k = .ok (some k) := by
  have _ := hsize
  have _ := hnodup
  have ha := hashTableInit_alloc s0 size h alloc hinit
  subst ha
  obtain ⟨t2, hr2, _, hch, _, _⟩ :=
    insertKeys_spec h keys _ _ s2 (hashTableInit_ready s0 size h hrange) hins
  intro k hk
  rw [hashTableLookup_ready s2 h t2 k hr2, hch (h k)]
  have hmem : k ∈ (keys.filter (fun k1 => h k1 = h k)).map strncpyData := by
    refine List.mem_map.mpr ⟨k, ?_, strncpyData_of_short k (hshort k hk)⟩
    exact List.mem_filter.mpr ⟨hk, by simp⟩
  simp [hmem]

/-- Witness of C1 on the sample run: `cat` is found although `dog` was appended to the
same chain afterwards. -/
theorem insert_lookup_round_trip_witness :
    hashTableLookup sampleState ['c', 'a', 't'] = .ok (some ['c', 'a', 't']) :=
  insert_lookup_round_trip initialState 10 lengthHash sampleKeys true sampleState
    (by decide) (fun k => by unfold lengthHash; omega) (by decide) (by decide) rfl rfl
    ['c', 'a', 't'] (by decide)

/-- Counterexample to C2 as stated: in a one-slot table the 128-character key `longKey` is
inserted; the 127-character string of the same letter was never passed to
`hashTableInsert`, yet `hashTableLookup` finds it, because the stored item holds only
the first 127 characters of `longKey`. -/
theorem lookup_never_inserted_counterexample :
    List.replicate 127 'a' ∉ [longKey] ∧
    (hashTableInit initialState 1 (fun _ => 0) true).1 = 1 ∧
    (insertKeys (hashTableInit initialState 1 (fun _ => 0) true).2 [longKey]).map
        (fun s => hashTableLookup s (List.replicate 127 'a'))
      = some (.ok (some (List.replicate 127 'a'))) :=
  ⟨by decide, rfl, rfl⟩

/-- Claim C2, amended: `hashTableLookup(k)` returns `NULL` on every uninitialized table, and
on every table initialized with an in-range hash function and filled by successful
inserts whenever `k` differs from the first 127 characters of every inserted key (for
inserted keys shorter than 128 characters: whenever `k` was never inserted). -/
theorem lookup_never_inserted (s0 : State) (size : Int) (h : CStr → Nat)
    (keys : List CStr) (s2 : State) (k : CStr) :
    (s0.table = none → hashTableLookup s0 k = .ok none) ∧
    ((∀ k1, (h k1 : Int) < size) →
      insertKeys (hashTableInit s0 size h true).2 keys = some s2 →
      (∀ k1 ∈ keys, strncpyData k1 ≠ k) →
      hashTableLookup s2 k = .ok none) ∧
    ((∀ k1, (h k1 : Int) < size) →
      insertKeys (hashTableInit s0 size h true).2 keys = some s2 →
      (∀ k1 ∈ keys, k1.length < 128) → k ∉ keys →
      hashTableLookup s2 k = .ok none) := by
  have main : (∀ k1, (h k1 : Int) < size) →
      insertKeys (hashTableInit s0 size h true).2 keys = some s2 →
      (∀ k1 ∈ keys, strncpyData k1 ≠ k) →
      hashTableLookup s2 k = .ok none := by
    intro hrange hins hne
    obtain ⟨t2, hr2, _, hch, _, _⟩ :=
      insertKeys_spec h keys _ _ s2 (hashTableInit_ready s0 size h hrange) hins
    rw [hashTableLookup_ready s2 h t2 k hr2, hch (h k), getElem?_replicate_nil_getD]
    have hmem : k ∉ (keys.filter (fun k1 => h k1 = h k)).map strncpyData := by
      intro hm
      obtain ⟨k1, hk1, he⟩ := List.mem_map.mp hm
      exact hne k1 (List.mem_filter.mp hk1).1 he
    simp [hmem]
  refine ⟨hashTableLookup_uninitialized s0 k, main, ?_⟩
  intro hrange hins hshort hnot
  refine main hrange hins ?_
  intro k1 hk1 he
  rw [strncpyData_of_short k1 (hshort k1 hk1)] at he
  exact hnot (he ▸ hk1)

/-- Witness of the amended C2: `cow` is not in the sample table, nor in the initial
(uninitialized) one. -/
theorem lookup_never_inserted_witness :
    hashTableLookup initialState ['c', 'o', 'w'] = .ok none ∧
    hashTableLookup sampleState ['c', 'o', 'w'] = .ok none ∧
    hashTableLookup sampleState ['c', 'o', 'w'] = .ok none :=
  ⟨(lookup_never_inserted initialState 10 lengthHash sampleKeys sampleState
      ['c', 'o', 'w']).1 rfl,
   (lookup_never_inserted initialState 10 lengthHash sampleKeys sampleState
      ['c', 'o', 'w']).2.1 (fun k => by unfold lengthHash; omega) rfl (by decide),
   (lookup_never_inserted initialState 10 lengthHash sampleKeys sampleState
      ['c', 'o', 'w']).2.2 (fun k => by unfold lengthHash; omega) rfl (by decide)
      (by decide)⟩

/-- Claim C3: on an initialized table with an in-range hash function `h`, a successful
`hashTableInsert(k)` sets the collision flag to 0 when bucket `h(k)` was empty before the
call and to 1 when it held an item; a following successful insert of any key that maps to
the same bucket reports 1. -/
theorem insert_collision_flag (s : State) (h : CStr → Nat) (t : List LINKED_LIST_T)
    (k : CStr) (c : Int) (alloc : Bool) (s1 : State) (c1 : Int)
    (hr : Ready s h t)
    (hi : hashTableInsert s k c alloc = .ok (1, s1, c1)) :
    (t[h k]? = some [] → c1 = 0) ∧
    (∀ d rest, t[h k]? = some (d :: rest) → c1 = 1) ∧
    (∀ k2 c2 alloc2 s2 c3, h k2 = h k →
      hashTableInsert s1 k2 c2 alloc2 = .ok (1, s2, c3) → c3 = 1) := by
  obtain ⟨t1, hr1, _, hch, _, _, _, hc1⟩ := hashTableInsert_step s h t k c alloc s1 c1 hr hi
  refine ⟨?_, ?_, ?_⟩
  · intro he
    rw [hc1, he]; rfl
  · intro d rest he
    rw [hc1, he]; rfl
  · intro k2 c2 alloc2 s2 c3 hk2 hi2
    obtain ⟨_, _, _, _, _, _, _, hc3⟩ :=
      hashTableInsert_step s1 h t1 k2 c2 alloc2 s2 c3 hr1 hi2
    rw [hc3, hk2, hch (h k)]
    simp

/-- Witness of C3: in the table holding `cat`, the insert of `dog` lands in the bucket of
`cat` and reports a collision, and so does every later insert into that bucket. -/
theorem insert_collision_flag_witness :
    hashTableInsert catState ['d', 'o', 'g'] 0 true = .ok (1, catDogState, 1) ∧
    (∀ k2 c2 alloc2 s2 c3, lengthHash k2 = lengthHash ['d', 'o', 'g'] →
      hashTableInsert catDogState k2 c2 alloc2 = .ok (1, s2, c3) → c3 = 1) :=
  ⟨rfl,
   (insert_collision_flag catState lengthHash
      [[], [], [], [['c', 'a', 't']], [], [], [], [], [], []]
      ['d', 'o', 'g'] 0 true catDogState 1
      ⟨rfl, rfl, fun k => by unfold lengthHash; exact Nat.mod_lt _ (by decide)⟩ rfl).2.2⟩

/-! Initialization and counters -/

/-- Claim C4: from every reachable state and for every hash function `h`, a successful
`hashTableInit(size, h)` with `size >= 1` leaves `hashTableItemCount() == 0`,
`hashTableSize() == size` and `size` empty buckets, so that whatever `hashTableLookup`
returns for a key is `NULL`; it does return, with `NULL`, for every key when `h` only
yields values below `size`. -/
theorem init_postcondition (s : State) (size : Int) (h : CStr → Nat) (alloc : Bool)
    (hs : Reachable s) (hsize : 1 ≤ size)
    (hinit : (hashTableInit s size h alloc).1 = 1) :
    hashTableItemCount (hashTableInit s size h alloc).2 = 0 ∧
    hashTableSize (hashTableInit s size h alloc).2 = size ∧
    (∃ t, (hashTableInit s size h alloc).2.table = some t ∧ (t.length : Int) = size ∧
      ∀ b ∈ t, b = []) ∧
    (∀ k r, hashTableLookup (hashTableInit s size h alloc).2 k = .ok r → r = none) ∧
    ((∀ k, (h k : Int) < size) →
      ∀ k, hashTableLookup (hashTableInit s size h alloc).2 k = .ok none) := by
  have ha := hashTableInit_alloc s size h alloc hinit
  subst ha
  refine ⟨?_, ?_, ?_, ?_, ?_⟩
  · rw [hashTableInit_snd]
    exact hs.itemCount_after_free
  · rw [hashTableInit_snd]; rfl
  · refine ⟨List.replicate size.toNat [], by rw [hashTableInit_snd]; rfl, ?_, ?_⟩
    · rw [List.length_replicate]; omega
    · intro b hb
      exact (List.mem_replicate.mp hb).2
  · intro k r hlook
    rw [hashTableInit_snd] at hlook
    unfold hashTableLookup callocTable at hlook
    simp only [if_true] at hlook
    cases hb : (List.replicate size.toNat ([] : LINKED_LIST_T))[h k]? with
    | none => rw [hb] at hlook; cases hlook
    | some bucket =>
      rw [hb] at hlook
      have hnil : bucket = [] := by
        have := getElem?_replicate_nil_getD size.toNat (h k)
        rw [hb] at this
        simpa using this
      subst hnil
      simp only [scanChain] at hlook
      injection hlook with hlook
      exact hlook.symm
  · intro hrange k
    rw [hashTableLookup_ready _ h _ k (hashTableInit_ready s size h hrange),
      getElem?_replicate_nil_getD]
    simp

/-- Witness of C4: re-initializing the populated sample table empties it, and `cat`,
stored before, is no longer found. -/
theorem init_postcondition_witness :
    hashTableItemCount (hashTableInit sampleState 10 lengthHash true).2 = 0 ∧
    hashTableLookup (hashTableInit sampleState 10 lengthHash true).2 ['c', 'a', 't']
      = .ok none :=
  have hs : Reachable sampleState :=
    .insert _ ['h', 'o', 'r', 's', 'e'] 0 true 1 sampleState 0
      (.insert _ ['d', 'o', 'g'] 0 true 1 catDogState 1
        (.insert _ ['c', 'a', 't'] 0 true 1 catState 0
          (.init initialState 10 lengthHash true .start) rfl) rfl) rfl
  have w := init_postcondition sampleState 10 lengthHash true hs (by decide) rfl
  ⟨w.1, w.2.2.2.2 (fun k => by unfold lengthHash; omega) ['c', 'a', 't']⟩

/-- Claim C5: after a successful `hashTableInit(size, h)` with `size >= 1` and `h` in range,
`n` successful inserts (duplicates and over-length keys allowed) leave
`hashTableItemCount() == n` and `hashTableSize() == size`; the inserts do succeed when
`n` does not exceed `INT_MAX`. -/
theorem item_count_counts_inserts (s0 : State) (size : Int) (h : CStr → Nat)
    (keys : List CStr) (alloc : Bool)
    (hs : Reachable s0) (hsize : 1 ≤ size) (hrange : ∀ k, (h k : Int) < size)
    (hinit : (hashTableInit s0 size h alloc).1 = 1) :
    ((keys.length : Int) ≤ INT_MAX →
      ∃ s2, insertKeys (hashTableInit s0 size h alloc).2 keys = some s2) ∧
    (∀ s2, insertKeys (hashTableInit s0 size h alloc).2 keys = some s2 →
      hashTableItemCount s2 = keys.length ∧ hashTableSize s2 = size) := by
  have _ := hsize
  have ha := hashTableInit_alloc s0 size h alloc hinit
  subst ha
  have hr := hashTableInit_ready s0 size h hrange
  have h0 : (hashTableInit s0 size h true).2.itemCount = 0 := by
    rw [hashTableInit_snd]
    exact hs.itemCount_after_free
  refine ⟨?_, ?_⟩
  · intro hle
    exact insertKeys_total h keys _ _ hr (by rw [h0]) (by rw [h0]; omega)
  · intro s2 hins
    obtain ⟨t2, _, _, _, hn, hsz⟩ := insertKeys_spec h keys _ _ s2 hr hins
    refine ⟨?_, ?_⟩
    · show s2.itemCount = _
      rw [hn, h0]; simp
    · show s2.tableSize = _
      rw [hsz, hashTableInit_snd]

/-- Witness of C5: a duplicate key and an over-length key are both counted. -/
theorem item_count_counts_inserts_witness :
    (insertKeys (hashTableInit sampleState 10 lengthHash true).2
      [['c', 'a', 't'], ['c', 'a', 't'], longKey]).map
        (fun s => (hashTableItemCount s, hashTableSize s)) = some (3, 10) ∧
    ∀ s2, insertKeys (hashTableInit sampleState 10 lengthHash true).2
      [['c', 'a', 't'], ['c', 'a', 't'], longKey] = some s2 →
      hashTableItemCount s2 = ([['c', 'a', 't'], ['c', 'a', 't'], longKey].length : Int) ∧
        hashTableSize s2 = 10 :=
  ⟨rfl,
   (item_count_counts_inserts sampleState 10 lengthHash
      [['c', 'a', 't'], ['c', 'a', 't'], longKey] true
      (.insert _ ['h', 'o', 'r', 's', 'e'] 0 true 1 sampleState 0
        (.insert _ ['d', 'o', 'g'] 0 true 1 catDogState 1
          (.insert _ ['c', 'a', 't'] 0 true 1 catState 0
            (.init initialState 10 lengthHash true .start) rfl) rfl) rfl)
      (by decide) (fun k => by unfold lengthHash; omega) rfl).2⟩

/-! Failure of insert -/

/-- Claim C6: `hashTableInsert` returns 0 exactly when the table is uninitialized or the
allocation of the item fails (otherwise it returns 1), and whenever it returns 0 the
globals and the collision flag of the caller are what they were before the call. -/
theorem insert_failure_exact (s : State) (key : CStr) (c : Int) (alloc : Bool) :
    ((s.table = none ∨ alloc = false) → hashTableInsert s key c alloc = .ok (0, s, c)) ∧
    (∀ r s1 c1, hashTableInsert s key c alloc = .ok (r, s1, c1) →
      (r = 0 ∨ r = 1) ∧ (r = 0 ↔ (s.table = none ∨ alloc = false)) ∧
      (r = 0 → s1 = s ∧ c1 = c)) := by
  refine ⟨?_, ?_⟩
  · intro hfail
    unfold hashTableInsert
    cases ht : s.table with
    | none => rfl
    | some t =>
      rcases hfail with h1 | h1
      · rw [ht] at h1; exact absurd h1 (by simp)
      · simp [h1]
  · intro r s1 c1 hi
    rcases hashTableInsert_cases s key c alloc r s1 c1 hi with
      ⟨hr, hs1, hc1, hfail⟩ | ⟨hr, ha, _, t, h, bucket, ht, _, _, _, _⟩
    · exact ⟨Or.inl hr, ⟨fun _ => hfail, fun _ => hr⟩, fun _ => ⟨hs1, hc1⟩⟩
    · have hne : r ≠ 0 := by rw [hr]; decide
      refine ⟨Or.inr hr, ⟨fun h0 => absurd h0 hne, ?_⟩, fun h0 => absurd h0 hne⟩
      intro hfail
      rcases hfail with h1 | h1
      · rw [ht] at h1; exact absurd h1 (by simp)
      · rw [ha] at h1; exact absurd h1 (by decide)

/-- Witness of C6: an insert before any initialize, and an insert into the sample table
whose allocation fails, both return 0 and leave the globals and the flag (here 7) alone. -/
theorem insert_failure_exact_witness :
    hashTableInsert initialState ['c', 'a', 't'] 7 true = .ok (0, initialState, 7) ∧
    hashTableInsert sampleState ['c', 'a', 't'] 7 false = .ok (0, sampleState, 7) ∧
    ((0 : Int) = 0 → sampleState = sampleState ∧ (7 : Int) = 7) :=
  ⟨(insert_failure_exact initialState ['c', 'a', 't'] 7 true).1 (Or.inl rfl),
   (insert_failure_exact sampleState ['c', 'a', 't'] 7 false).1 (Or.inr rfl),
   ((insert_failure_exact sampleState ['c', 'a', 't'] 7 false).2 0 sampleState 7 rfl).2.2⟩

/-! Keys longer than an item -/

/-- Counterexample to C7 as stated: in a two-slot table with the in-range hash function
`parityHash`, the 128-character key `longKey` is inserted successfully into bucket 0; the
lookup of its first 127 characters scans bucket 1 and returns `NULL`. -/
theorem truncated_prefix_counterexample :
    127 < longKey.length ∧
    (∀ k, parityHash k < 2) ∧
    (hashTableInit initialState 2 parityHash true).1 = 1 ∧
    (hashTableInsert (hashTableInit initialState 2 parityHash true).2 longKey 0 true).map
        (fun r => (r.1, hashTableLookup r.2.1 (longKey.take 127)))
      = .ok (1, .ok none) :=
  ⟨by decide, fun k => Nat.mod_lt _ (by decide), rfl, rfl⟩

/-- Claim C7, amended: on an initialized table with an in-range hash function `h`, a
successful `hashTableInsert(K)` of a key longer than 127 characters appends the first 127
characters of `K` to the chain of bucket `h(K)`; `hashTableLookup` of that 127-character
prefix finds this payload provided `h` maps the prefix to the bucket of `K`;
`hashTableLookup(K)` does not return it, and returns `NULL` when no stored payload is
longer than 127 characters. -/
theorem truncated_prefix_retrieval (s : State) (h : CStr → Nat) (t : List LINKED_LIST_T)
    (K : CStr) (c : Int) (alloc : Bool) (s1 : State) (c1 : Int)
    (hr : Ready s h t) (hlen : 127 < K.length)
    (hi : hashTableInsert s K c alloc = .ok (1, s1, c1)) :
    (∃ t1, s1.table = some t1 ∧ t1[h K]? = some (t[h K]?.getD [] ++ [K.take 127])) ∧
    (h (K.take 127) = h K →
      hashTableLookup s1 (K.take 127) = .ok (some (K.take 127))) ∧
    hashTableLookup s1 K ≠ .ok (some (K.take 127)) ∧
    ((∀ b ∈ t, ∀ d ∈ b, d.length ≤ 127) → hashTableLookup s1 K = .ok none) := by
  obtain ⟨t1, hr1, hl1, hch, _, _, _, _⟩ := hashTableInsert_step s h t K c alloc s1 c1 hr hi
  have hne : K ≠ K.take 127 := by
    intro e
    have hl := congrArg List.length e
    rw [List.length_take] at hl
    omega
  refine ⟨⟨t1, hr1.2.1, ?_⟩, ?_, ?_, ?_⟩
  · have hlt : h K < t1.length := hr1.2.2 K
    have := hch (h K)
    rw [List.getElem?_eq_getElem hlt] at this ⊢
    simp only [Option.getD_some, if_true] at this
    rw [this]; rfl
  · intro hsame
    rw [hashTableLookup_ready s1 h t1 _ hr1, hsame, hch (h K)]
    simp [strncpyData, KEYLEN]
  · rw [hashTableLookup_ready s1 h t1 _ hr1]
    intro e
    injection e with e
    split at e
    · injection e with e
      exact hne e
    · exact absurd e (by simp)
  · intro hbound
    rw [hashTableLookup_ready s1 h t1 _ hr1, hch (h K)]
    simp only [if_true]
    have hnot : K ∉ t[h K]?.getD [] ++ [strncpyData K] := by
      intro hm
      simp only [List.mem_append, List.mem_singleton] at hm
      rcases hm with hm | hm
      · have hlt : h K < t.length := hr.2.2 K
        rw [List.getElem?_eq_getElem hlt, Option.getD_some] at hm
        have := hbound _ (List.getElem_mem hlt) K hm
        omega
      · exact hne hm
    simp only [hnot, if_false]

/-- Witness of the amended C7: in a one-slot table the prefix shares the bucket of
`longKey`, is found, and `longKey` itself is not. -/
theorem truncated_prefix_retrieval_witness :
    hashTableLookup
        { hashFn := some (fun _ => 0), table := some [[longKey.take 127]],
          tableSize := 1, itemCount := 1 }
        (longKey.take 127) = .ok (some (longKey.take 127)) ∧
    hashTableLookup
        { hashFn := some (fun _ => 0), table := some [[longKey.take 127]],
          tableSize := 1, itemCount := 1 }
        longKey = .ok none :=
  have w := truncated_prefix_retrieval (hashTableInit initialState 1 (fun _ => 0) true).2
    (fun _ => 0) [[]] longKey 0 true
    { hashFn := some (fun _ => 0), table := some [[longKey.take 127]],
      tableSize := 1, itemCount := 1 } 0
    ⟨rfl, rfl, fun _ => Nat.zero_lt_one⟩ (by decide) rfl
  ⟨w.2.1 rfl, w.2.2.2 (by decide)⟩

/-! Teardown and failed initialization -/

/-- Claim C8, evaluated at its failing input: from the initial globals,
`hashTableInit(BUCKET_COUNT, lengthHash)` whose `calloc` returns `NULL` returns 0 and leaves
`table == NULL` with `tableSize == BUCKET_COUNT`; the following `hashTableFree()` finds
`table == NULL`, does nothing, and `hashTableSize()` is still `BUCKET_COUNT`, not 0. -/
theorem free_after_failed_init_keeps_size :
    Reachable (hashTableInit initialState BUCKET_COUNT lengthHash false).2 ∧
    (hashTableInit initialState BUCKET_COUNT lengthHash false).1 = 0 ∧
    hashTableSize (hashTableFree (hashTableInit initialState BUCKET_COUNT lengthHash false).2)
      = 20000000 ∧
    (hashTableFree (hashTableInit initialState BUCKET_COUNT lengthHash false).2).table
      = none :=
  ⟨.init initialState BUCKET_COUNT lengthHash false .start, rfl, rfl, rfl⟩

/-- Claim C9, evaluated at its failing input: from the initial globals,
`hashTableInit(BUCKET_COUNT, lengthHash)` whose `calloc` returns `NULL` returns 0 with
`table == NULL` and `itemCount == 0`, but `hashTableSize()` is `BUCKET_COUNT`, not 0. -/
theorem failed_init_keeps_size :
    (hashTableInit initialState BUCKET_COUNT lengthHash false).1 = 0 ∧
    (hashTableInit initialState BUCKET_COUNT lengthHash false).2.table = none ∧
    hashTableItemCount (hashTableInit initialState BUCKET_COUNT lengthHash false).2 = 0 ∧
    hashTableSize (hashTableInit initialState BUCKET_COUNT lengthHash false).2 = 20000000 ∧
    hashTableSize (hashTableInit initialState BUCKET_COUNT lengthHash false).2 ≠ 0 :=
  ⟨rfl, rfl, rfl, rfl, by decide⟩

/-- Claim C10: `hashTableFree` is idempotent on every state, and on a state with
`table == NULL` it changes nothing. -/
theorem free_idempotent (s : State) :
    hashTableFree (hashTableFree s) = hashTableFree s ∧
    (s.table = none → hashTableFree s = s) := by
  refine ⟨?_, ?_⟩
  · unfold hashTableFree
    cases ht : s.table with
    | none => simp only [ht]
    | some t => rfl
  · intro ht
    unfold hashTableFree
    simp only [ht]

/-- Witness of C10: freeing the initial, uninitialized globals changes nothing, and
freeing the sample table twice gives the state reached by freeing it once. -/
theorem free_idempotent_witness :
    hashTableFree initialState = initialState ∧
    hashTableFree (hashTableFree sampleState) = hashTableFree sampleState :=
  ⟨(free_idempotent initialState).2 rfl, (free_idempotent sampleState).1⟩

/-! Duplicate keys -/

/-- An insert into a ready table whose allocation succeeds returns 1; its flag tells
whether the bucket held an item. -/
theorem hashTableInsert_ready_step (s : State) (h : CStr → Nat) (t : List LINKED_LIST_T)
    (key : CStr) (c : Int) (hr : Ready s h t) (hc : s.itemCount ≠ INT_MAX) :
    ∃ s1 t1,
      hashTableInsert s key c true =
        .ok (1, s1, if t[h key]?.getD [] = [] then 0 else 1) ∧
      Ready s1 h t1 ∧ t1.length = t.length ∧
      (∀ i, t1[i]?.getD [] =
        t[i]?.getD [] ++ (if h key = i then [strncpyData key] else [])) ∧
      s1.itemCount = s.itemCount + 1 ∧ s1.tableSize = s.tableSize := by
  obtain ⟨b, _, hi⟩ := hashTableInsert_ready s h t key c hr hc
  obtain ⟨t1, hr1, hl, hch, hn, hsz, _, hflag⟩ :=
    hashTableInsert_step s h t key c true _ _ hr hi
  exact ⟨_, t1, by rw [hi, hflag], hr1, hl, hch, hn, hsz⟩

/-- Claim C11: after a successful `hashTableInit(size, h)` with `h` in range, two successful
inserts of the same key `k` shorter than 128 characters report no collision and then a
collision, leave `hashTableItemCount() == 2`, `hashTableLookup(k)` returns a payload equal
to `k`, and the lookup of any other key returns `NULL`. -/
theorem duplicate_key_stored_twice (s0 : State) (size : Int) (h : CStr → Nat) (k : CStr)
    (c c2 : Int) (alloc : Bool)
    (hs : Reachable s0) (hrange : ∀ k1, (h k1 : Int) < size) (hk : k.length < 128)
    (hinit : (hashTableInit s0 size h alloc).1 = 1) :
    ∃ s2 s3,
      hashTableInsert (hashTableInit s0 size h alloc).2 k c true = .ok (1, s2, 0) ∧
      hashTableInsert s2 k c2 true = .ok (1, s3, 1) ∧
      hashTableItemCount s3 = 2 ∧
      hashTableLookup s3 k = .ok (some k) ∧
      ∀ k1, k1 ≠ k → hashTableLookup s3 k1 = .ok none := by
  have ha := hashTableInit_alloc s0 size h alloc hinit
  subst ha
  have hr1 := hashTableInit_ready s0 size h hrange
  have h0 : (hashTableInit s0 size h true).2.itemCount = 0 := by
    rw [hashTableInit_snd]
    exact hs.itemCount_after_free
  obtain ⟨s2, t2, hi1, hr2, _, hch2, hn2, _⟩ :=
    hashTableInsert_ready_step _ h _ k c hr1 (by rw [h0]; decide)
  obtain ⟨s3, t3, hi2, hr3, _, hch3, hn3, _⟩ :=
    hashTableInsert_ready_step s2 h t2 k c2 hr2 (by rw [hn2, h0]; decide)
  have hdata := strncpyData_of_short k hk
  have hchain : ∀ i, t3[i]?.getD [] = if h k = i then [k, k] else [] := by
    intro i
    rw [hch3 i, hch2 i, getElem?_replicate_nil_getD, hdata]
    by_cases hi : h k = i <;> simp [hi]
  refine ⟨s2, s3, ?_, ?_, ?_, ?_, ?_⟩
  · rw [hi1, getElem?_replicate_nil_getD]; rfl
  · rw [hi2, hch2 (h k)]; simp
  · show s3.itemCount = 2
    rw [hn3, hn2, h0]; rfl
  · rw [hashTableLookup_ready _ h t3 k hr3, hchain]
    simp
  · intro k1 hne
    rw [hashTableLookup_ready _ h t3 k1 hr3, hchain]
    by_cases hi : h k = h k1 <;> simp [hi, hne]

/-- Witness of C11: size 10, key `cat` inserted twice, other key `dog`. -/
theorem duplicate_key_stored_twice_witness :
    ∃ s2 s3,
      hashTableInsert (hashTableInit initialState 10 lengthHash true).2 ['c', 'a', 't'] 0 true
        = .ok (1, s2, 0) ∧
      hashTableInsert s2 ['c', 'a', 't'] 0 true = .ok (1, s3, 1) ∧
      hashTableItemCount s3 = 2 ∧
      hashTableLookup s3 ['c', 'a', 't'] = .ok (some ['c', 'a', 't']) ∧
      ∀ k1, k1 ≠ ['c', 'a', 't'] → hashTableLookup s3 k1 = .ok none :=
  duplicate_key_stored_twice initialState 10 lengthHash ['c', 'a', 't'] 0 0 true
    .start (fun k => by unfold lengthHash; omega) (by decide) rfl

/-! The default hash function -/

theorem land_top_nibble_of_lt (r : Nat) (h : r < 2 ^ 28) : r &&& 0xf0000000 = 0 := by
  apply Nat.eq_of_testBit_eq
  intro i
  rw [Nat.testBit_and, Nat.zero_testBit]
  by_cases hi : i < 28
  · have hm : Nat.testBit 0xf0000000 i = false := by
      interval_cases i <;> rfl
    rw [hm, Bool.and_false]
  · have hr : r.testBit i = false := by
      apply Nat.testBit_lt_two_pow
      calc r < 2 ^ 28 := h
        _ ≤ 2 ^ i := Nat.pow_le_pow_right (by decide) (by omega)
    rw [hr, Bool.false_and]

theorem charToUnsigned_of_le (c : Char) (hc : c.toNat ≤ 127) : charToUnsigned c = c.toNat := by
  unfold charToUnsigned
  have h1 : c.toNat % 256 = c.toNat := Nat.mod_eq_of_lt (by omega)
  rw [h1, if_pos (by omega)]

/-- One pass of the loop on a small running value and a 7-bit character: the shifted sum
stays below `2^28`, so the top nibble is clear and no XOR takes place. -/
theorem hashStep_small (r m : Nat) (c : Char) (hr : 15 * r + 127 ≤ 127 * 16 ^ m)
    (hm : m + 1 ≤ 6) (hc : c.toNat ≤ 127) :
    hashTmp r c = 0 ∧ hashStep r c = r * 16 + c.toNat ∧
      15 * (r * 16 + c.toNat) + 127 ≤ 127 * 16 ^ (m + 1) := by
  have hpow : 16 ^ (m + 1) = 16 * 16 ^ m := by rw [pow_succ]; ring
  have hmono : 16 ^ (m + 1) ≤ 16 ^ 6 := Nat.pow_le_pow_right (by decide) hm
  have h6 : (16 : Nat) ^ 6 = 16777216 := by norm_num
  have hb : 15 * (r * 16 + c.toNat) + 127 ≤ 127 * 16 ^ (m + 1) := by
    rw [hpow]; omega
  have hlt : r * 16 + c.toNat < 2 ^ 28 := by
    have : (2 : Nat) ^ 28 = 268435456 := by norm_num
    omega
  have hval : ((r <<< 4) + charToUnsigned c) % 4294967296 = r * 16 + c.toNat := by
    rw [Nat.shiftLeft_eq, charToUnsigned_of_le c hc]
    have : (2 : Nat) ^ 4 = 16 := by norm_num
    rw [this]
    apply Nat.mod_eq_of_lt
    have : (2 : Nat) ^ 28 = 268435456 := by norm_num
    omega
  refine ⟨?_, ?_, hb⟩
  · unfold hashTmp
    rw [hval]
    exact land_top_nibble_of_lt _ hlt
  · unfold hashStep
    simp only [hval, land_top_nibble_of_lt _ hlt, ne_eq, not_true_eq_false, if_false]

theorem foldl_hashStep_small (key : CStr) :
    ∀ (r m : Nat), 15 * r + 127 ≤ 127 * 16 ^ m → m + key.length ≤ 6 →
      (∀ c ∈ key, c.toNat ≤ 127) →
      key.foldl hashStep r = r * 16 ^ key.length + base16Polynomial key ∧
        15 * key.foldl hashStep r + 127 ≤ 127 * 16 ^ (m + key.length) := by
  induction key with
  | nil =>
    intro r m hr _ _
    simpa [base16Polynomial] using hr
  | cons c rest ih =>
    intro r m hr hm hc
    simp only [List.length_cons] at hm
    obtain ⟨_, hstep, hb⟩ := hashStep_small r m c hr (by omega) (hc c (List.mem_cons_self c rest))
    obtain ⟨h1, h2⟩ := ih (r * 16 + c.toNat) (m + 1) hb (by omega)
      (fun d hd => hc d (List.mem_cons_of_mem c hd))
    simp only [List.foldl_cons, hstep, List.length_cons, base16Polynomial]
    refine ⟨?_, ?_⟩
    · rw [h1, pow_succ]; ring
    · have : m + (rest.length + 1) = m + 1 + rest.length := by omega
      rw [this]; exact h2

theorem hashLoop_small (key : CStr) (hlen : key.length ≤ 6)
    (hc : ∀ c ∈ key, c.toNat ≤ 127) :
    hashLoop key = base16Polynomial key ∧
      15 * hashLoop key + 127 ≤ 127 * 16 ^ key.length := by
  have := foldl_hashStep_small key 0 0 (by norm_num) (by omega) hc
  simpa [hashLoop] using this

theorem bitwiseOpHash_ok (size : Int) (key : CStr) (h1 : 1 ≤ size) (h2 : size ≤ INT_MAX) :
    bitwiseOpHash size key = .ok (hashLoop key % size.toNat) := by
  unfold INT_MAX at h2
  have hmod : size % 4294967296 = size := Int.emod_eq_of_lt (by omega) (by omega)
  unfold bitwiseOpHash
  simp only [hmod]
  rw [if_neg (by omega)]

/-- Claim C12: when `hashTableSize()` is `size >= 1`, `bitwiseOpHash(key)` returns, for every
key, a value `r` with `0 <= r < size`, an index into the bucket array of `size` slots. -/
theorem bitwiseOpHash_in_range (size : Int) (key : CStr) (h1 : 1 ≤ size)
    (h2 : size ≤ INT_MAX) :
    ∃ r, bitwiseOpHash size key = .ok r ∧ bitwiseOpHashAt size key = r ∧
      0 ≤ (r : Int) ∧ (r : Int) < size ∧
      (List.replicate size.toNat ([] : LINKED_LIST_T))[r]? = some [] := by
  have hok := bitwiseOpHash_ok size key h1 h2
  have hlt : hashLoop key % size.toNat < size.toNat := Nat.mod_lt _ (by omega)
  refine ⟨hashLoop key % size.toNat, hok, ?_, by omega, by omega, ?_⟩
  · unfold bitwiseOpHashAt
    rw [hok]
  · rw [List.getElem?_replicate, if_pos hlt]

/-- Witness of C12: for a table of 10 slots the key `cat` hashes to a slot below 10. -/
theorem bitwiseOpHash_in_range_witness :
    ∃ r, bitwiseOpHash 10 ['c', 'a', 't'] = .ok r ∧ bitwiseOpHashAt 10 ['c', 'a', 't'] = r ∧
      0 ≤ (r : Int) ∧ (r : Int) < 10 ∧
      (List.replicate (10 : Int).toNat ([] : LINKED_LIST_T))[r]? = some [] :=
  bitwiseOpHash_in_range 10 ['c', 'a', 't'] (by decide) (by decide)

/-- Claim C20: for every slot count `size >= 1` and every key of at most 6 characters with
codes in 1..127, no pass of the loop of `bitwiseOpHash` finds the top nibble set and the
result is the base-16 polynomial of the key reduced modulo `size`; for 7 characters this
fails (key `AAAAAAA`, size `2^31 - 1`). -/
theorem short_key_hash_is_polynomial :
    (∀ (size : Int) (key : CStr), 1 ≤ size → size ≤ INT_MAX → key.length ≤ 6 →
      (∀ c ∈ key, 1 ≤ c.toNat ∧ c.toNat ≤ 127) →
      (∀ p c rest, key = p ++ c :: rest → hashTmp (hashLoop p) c = 0) ∧
      ∃ r, bitwiseOpHash size key = .ok r ∧
        (r : Int) = (base16Polynomial key : Int) % size) ∧
    (∃ (size : Int) (key : CStr), 1 ≤ size ∧ size ≤ INT_MAX ∧ key.length = 7 ∧
      (∀ c ∈ key, 1 ≤ c.toNat ∧ c.toNat ≤ 127) ∧
      ∃ r, bitwiseOpHash size key = .ok r ∧
        (r : Int) ≠ (base16Polynomial key : Int) % size) := by
  refine ⟨?_, ?_⟩
  · intro size key h1 h2 hlen hbytes
    refine ⟨?_, ?_⟩
    · intro p c rest hkey
      have hl : p.length + 1 ≤ 6 := by
        have := congrArg List.length hkey
        simp only [List.length_append, List.length_cons] at this
        omega
      have hp : ∀ d ∈ p, d.toNat ≤ 127 := by
        intro d hd
        exact (hbytes d (by rw [hkey]; exact List.mem_append_left _ hd)).2
      have hc : c.toNat ≤ 127 :=
        (hbytes c (by rw [hkey]; exact List.mem_append_right _ (List.mem_cons_self c rest))).2
      obtain ⟨_, hb⟩ := hashLoop_small p (by omega) hp
      exact (hashStep_small (hashLoop p) p.length c hb hl hc).1
    · refine ⟨hashLoop key % size.toNat, bitwiseOpHash_ok size key h1 h2, ?_⟩
      obtain ⟨hpoly, _⟩ := hashLoop_small key hlen (fun c hc => (hbytes c hc).2)
      rw [hpoly, Int.natCast_mod, Int.toNat_of_nonneg (by omega)]
  · refine ⟨2147483647, List.replicate 7 'A', by decide, by decide, rfl, by decide,
      89478417, rfl, by decide⟩

/-- Witness of C20: the key `cat` in a table of 10 slots hashes to
`(99 * 256 + 97 * 16 + 116) mod 10`. -/
theorem short_key_hash_is_polynomial_witness :
    ∃ r, bitwiseOpHash 10 ['c', 'a', 't'] = .ok r ∧
      (r : Int) = (base16Polynomial ['c', 'a', 't'] : Int) % 10 :=
  (short_key_hash_is_polynomial.1 10 ['c', 'a', 't'] (by decide) (by decide) (by decide)
    (by decide)).2

/-! Lookup and insert in detail -/

theorem scanChain_eq_find (l : LINKED_LIST_T) (key : CStr) :
    scanChain l key = l.find? (fun d => decide (d = key)) := by
  induction l with
  | nil => rfl
  | cons d rest ih =>
    by_cases hd : d = key
    · simp [scanChain, hd]
    · simp [scanChain, hd, ih]

theorem take_min_length (k : CStr) : k.take (min k.length 127) = strncpyData k := by
  unfold strncpyData KEYLEN
  by_cases hk : k.length ≤ 127
  · rw [Nat.min_eq_left hk, List.take_length, List.take_of_length_le hk]
  · rw [Nat.min_eq_right (by omega)]

/-- Claim C13: on an initialized table with an in-range hash function `h`,
`hashTableLookup(k)` returns the first item, from head to tail, of the chain of bucket `h(k)`
whose payload equals `k`, returns `NULL` exactly when that chain has no such item, and
depends on no other bucket. -/
theorem lookup_first_match (s : State) (h : CStr → Nat) (t : List LINKED_LIST_T) (k : CStr)
    (hr : Ready s h t) :
    hashTableLookup s k = .ok ((t[h k]?.getD []).find? (fun d => decide (d = k))) ∧
    (hashTableLookup s k = .ok none ↔ k ∉ t[h k]?.getD []) ∧
    (∀ s1 t1, Ready s1 h t1 → t1[h k]? = t[h k]? →
      hashTableLookup s1 k = hashTableLookup s k) := by
  refine ⟨?_, ?_, ?_⟩
  · obtain ⟨hf, ht, hlt⟩ := hr
    unfold hashTableLookup
    simp only [ht, hf, List.getElem?_eq_getElem (hlt k), scanChain_eq_find, Option.getD_some]
  · rw [hashTableLookup_ready s h t k hr]
    by_cases hm : k ∈ t[h k]?.getD []
    · simp [hm]
    · simp [hm]
  · intro s1 t1 hr1 hsame
    rw [hashTableLookup_ready s h t k hr, hashTableLookup_ready s1 h t1 k hr1, hsame]

/-- Witness of C13: in the sample table the lookup of `dog` passes over `cat` in bucket 3
and returns the second item of that chain. -/
theorem lookup_first_match_witness :
    hashTableLookup sampleState ['d', 'o', 'g'] =
      .ok (([[], [], [], [['c', 'a', 't'], ['d', 'o', 'g']], [],
             [['h', 'o', 'r', 's', 'e']], [], [], [], []][lengthHash ['d', 'o', 'g']]?.getD
               []).find? (fun d => decide (d = ['d', 'o', 'g']))) :=
  (lookup_first_match sampleState lengthHash
    [[], [], [], [['c', 'a', 't'], ['d', 'o', 'g']], [], [['h', 'o', 'r', 's', 'e']],
      [], [], [], []]
    ['d', 'o', 'g']
    ⟨rfl, rfl, fun k => by unfold lengthHash; exact Nat.mod_lt _ (by decide)⟩).1

/-- Claim C14: on an initialized table with an in-range hash function `h`, a successful
`hashTableInsert(k)` appends one item holding the first `min(length(k), 127)` characters of
`k` to the chain of bucket `h(k)` and adds one to `itemCount`; the other chains, the number
of buckets, `tableSize` and `hashFn` stay as they were. -/
theorem insert_postcondition_frame (s : State) (h : CStr → Nat) (t : List LINKED_LIST_T)
    (k : CStr) (c : Int) (alloc : Bool) (s1 : State) (c1 : Int)
    (hr : Ready s h t)
    (hi : hashTableInsert s k c alloc = .ok (1, s1, c1)) :
    ∃ old t1, t[h k]? = some old ∧ s1.table = some t1 ∧ t1.length = t.length ∧
      t1[h k]? = some (old ++ [k.take (min k.length 127)]) ∧
      (∀ i, i ≠ h k → t1[i]? = t[i]?) ∧
      s1.itemCount = s.itemCount + 1 ∧
      s1.tableSize = s.tableSize ∧ s1.hashFn = s.hashFn := by
  obtain ⟨hf, ht, hlt⟩ := hr
  rcases hashTableInsert_cases s k c alloc 1 s1 c1 hi with
    ⟨h0, _⟩ | ⟨_, _, _, t0, h0, old, ht0, hf0, hb, hs1, _⟩
  · exact absurd h0 (by decide)
  · rw [ht] at ht0
    rw [hf] at hf0
    injection ht0 with ht0
    injection hf0 with hf0
    subst ht0
    subst hf0
    refine ⟨old, t.set (h k) (old ++ [strncpyData k]), hb, by rw [hs1],
      List.length_set .., ?_, ?_, by rw [hs1], by rw [hs1], by rw [hs1]⟩
    · rw [take_min_length]
      simp [List.getElem?_set, hlt k]
    · intro i hne
      simp [List.getElem?_set, Ne.symm hne]

/-- Witness of C14: the insert of `dog` into the table holding `cat`. -/
theorem insert_postcondition_frame_witness :
    ∃ old t1, [[], [], [], [['c', 'a', 't']], [], [], [], [], [], []][lengthHash
        ['d', 'o', 'g']]? = some old ∧
      catDogState.table = some t1 ∧
      t1.length = [[], [], [], [['c', 'a', 't']], [], [], [], [], [], []].length ∧
      t1[lengthHash ['d', 'o', 'g']]? =
        some (old ++ [['d', 'o', 'g'].take (min ['d', 'o', 'g'].length 127)]) ∧
      (∀ i, i ≠ lengthHash ['d', 'o', 'g'] →
        t1[i]? = [[], [], [], [['c', 'a', 't']], [], [], [], [], [], []][i]?) ∧
      catDogState.itemCount = catState.itemCount + 1 ∧
      catDogState.tableSize = catState.tableSize ∧ catDogState.hashFn = catState.hashFn :=
  insert_postcondition_frame catState lengthHash
    [[], [], [], [['c', 'a', 't']], [], [], [], [], [], []]
    ['d', 'o', 'g'] 0 true catDogState 1
    ⟨rfl, rfl, fun k => by unfold lengthHash; exact Nat.mod_lt _ (by decide)⟩ rfl

/-! Invariants of the reachable states -/

theorem sum_length_set_append (d : CStr) (t : List LINKED_LIST_T) :
    ∀ (i : Nat) (b : LINKED_LIST_T), t[i]? = some b →
      ((t.set i (b ++ [d])).map List.length).sum = (t.map List.length).sum + 1 := by
  induction t with
  | nil => intro i b hb; simp at hb
  | cons a rest ih =>
    intro i b hb
    cases i with
    | zero =>
      simp only [List.getElem?_cons_zero, Option.some.injEq] at hb
      subst hb
      simp only [List.set_cons_zero, List.map_cons, List.sum_cons, List.length_append,
        List.length_singleton]
      omega
    | succ j =>
      simp only [List.getElem?_cons_succ] at hb
      simp only [List.set_cons_succ, List.map_cons, List.sum_cons, ih j b hb]
      omega

theorem sum_length_replicate_nil (n : Nat) :
    ((List.replicate n ([] : LINKED_LIST_T)).map List.length).sum = 0 := by
  induction n with
  | zero => rfl
  | succ n ih => simp [List.replicate_succ]

/-- Claim C15: in every state reachable from the initial globals through calls of
`hashTableInit`, `hashTableInsert` and `hashTableFree` (failed calls included), `itemCount`
is non-negative and equals the number of items in all the chains, which is 0 when the
table is uninitialized. -/
theorem count_invariant (s : State) (hs : Reachable s) :
    0 ≤ hashTableItemCount s ∧ hashTableItemCount s = totalEntries s ∧
      (s.table = none → hashTableItemCount s = 0) := by
  have key : hashTableItemCount s = totalEntries s := by
    induction hs with
    | start => rfl
    | init s size h alloc hs _ =>
      rw [hashTableInit_snd]
      show (hashTableFree s).itemCount = _
      rw [hs.itemCount_after_free]
      cases alloc with
      | false => rfl
      | true =>
        show (0 : Int) = ((((List.replicate size.toNat ([] : LINKED_LIST_T)).map
          List.length).sum : Nat) : Int)
        rw [sum_length_replicate_nil]; rfl
    | insert s key c alloc r s1 c1 _ hi ih =>
      rcases hashTableInsert_cases s key c alloc r s1 c1 hi with
        ⟨_, hs1, _, _⟩ | ⟨_, _, _, t, h, bucket, ht, _, hb, hs1, _⟩
      · rw [hs1]; exact ih
      · have hold : totalEntries s = (t.map List.length).sum := by
          unfold totalEntries; rw [ht]
        rw [hs1]
        show s.itemCount + 1 = (((((t.set (h key) (bucket ++ [strncpyData key])).map
          List.length).sum : Nat)) : Int)
        rw [sum_length_set_append _ t (h key) bucket hb]
        have : s.itemCount = ((t.map List.length).sum : Nat) := by
          rw [← hold]; exact ih
        rw [this, Nat.cast_add, Nat.cast_one]
    | free s _ ih =>
      unfold hashTableFree
      cases ht : s.table with
      | none => simpa [ht] using ih
      | some t => rfl
  refine ⟨?_, key, hs.itemCount_of_no_table⟩
  rw [key]
  exact Int.natCast_nonneg _

/-- Witness of C15: the sample table, reached by one initialize and three inserts, counts
its three items. -/
theorem count_invariant_witness :
    0 ≤ hashTableItemCount sampleState ∧
      hashTableItemCount sampleState = totalEntries sampleState ∧
      (sampleState.table = none → hashTableItemCount sampleState = 0) :=
  count_invariant sampleState
    (.insert _ ['h', 'o', 'r', 's', 'e'] 0 true 1 sampleState 0
      (.insert _ ['d', 'o', 'g'] 0 true 1 catDogState 1
        (.insert _ ['c', 'a', 't'] 0 true 1 catState 0
          (.init initialState 10 lengthHash true .start) rfl) rfl) rfl)

/-! Chains against the insertion history -/

/-- Claim C17: after a successful `hashTableInit(size, h)` with `size >= 1` and `h` in range
and successful inserts of `k_1 .. k_n`, the chain of every bucket `i`, from head to tail, is
the list of the first 127 characters of those `k_j` with `h(k_j) = i`, in the order of the
inserts. -/
theorem chain_order_is_insertion_order (s0 : State) (size : Int) (h : CStr → Nat)
    (keys : List CStr) (alloc : Bool) (s2 : State)
    (hsize : 1 ≤ size) (hrange : ∀ k, (h k : Int) < size)
    (hinit : (hashTableInit s0 size h alloc).1 = 1)
    (hins : insertKeys (hashTableInit s0 size h alloc).2 keys = some s2) :
    ∃ t2, s2.table = some t2 ∧ (t2.length : Int) = size ∧
      ∀ i, i < t2.length →
        t2[i]? = some ((keys.filter (fun k => h k = i)).map (fun k => k.take 127)) := by
  have ha := hashTableInit_alloc s0 size h alloc hinit
  subst ha
  obtain ⟨t2, hr2, hl, hch, _, _⟩ :=
    insertKeys_spec h keys _ _ s2 (hashTableInit_ready s0 size h hrange) hins
  refine ⟨t2, hr2.2.1, ?_, ?_⟩
  · rw [hl, List.length_replicate]; omega
  · intro i hi
    have := hch i
    rw [List.getElem?_eq_getElem hi, Option.getD_some, getElem?_replicate_nil_getD,
      List.nil_append] at this
    rw [List.getElem?_eq_getElem hi, this]
    rfl

/-- Witness of C17: bucket 3 of the sample table holds `cat` then `dog`. -/
theorem chain_order_is_insertion_order_witness :
    ∃ t2, sampleState.table = some t2 ∧ (t2.length : Int) = 10 ∧
      ∀ i, i < t2.length →
        t2[i]? = some ((sampleKeys.filter (fun k => lengthHash k = i)).map
          (fun k => k.take 127)) :=
  chain_order_is_insertion_order initialState 10 lengthHash sampleKeys true sampleState
    (by decide) (fun k => by unfold lengthHash; omega) rfl rfl

/-- Claim C18: after a successful `hashTableInit(size, h)` with `size >= 1` and `h` in range
and successful inserts of a list of keys, `hashTableLookup(q)` finds an item if and only if
some inserted key `k` has `h(k) = h(q)` and its first `min(length(k), 127)` characters
equal `q`; the payload found is equal to `q`. -/
theorem lookup_iff_inserted (s0 : State) (size : Int) (h : CStr → Nat)
    (keys : List CStr) (alloc : Bool) (s2 : State) (q : CStr)
    (hsize : 1 ≤ size) (hrange : ∀ k, (h k : Int) < size)
    (hinit : (hashTableInit s0 size h alloc).1 = 1)
    (hins : insertKeys (hashTableInit s0 size h alloc).2 keys = some s2) :
    ((∃ d, hashTableLookup s2 q = .ok (some d)) ↔
      ∃ k ∈ keys, h k = h q ∧ k.take (min k.length 127) = q) ∧
    (∀ d, hashTableLookup s2 q = .ok (some d) → d = q) ∧
    (hashTableLookup s2 q = .ok none ∨ hashTableLookup s2 q = .ok (some q)) := by
  have _ := hsize
  have ha := hashTableInit_alloc s0 size h alloc hinit
  subst ha
  obtain ⟨t2, hr2, _, hch, _, _⟩ :=
    insertKeys_spec h keys _ _ s2 (hashTableInit_ready s0 size h hrange) hins
  have hlook := hashTableLookup_ready s2 h t2 q hr2
  rw [hch (h q), getElem?_replicate_nil_getD, List.nil_append] at hlook
  have hmem : q ∈ (keys.filter (fun k => h k = h q)).map strncpyData ↔
      ∃ k ∈ keys, h k = h q ∧ k.take (min k.length 127) = q := by
    constructor
    · intro hm
      obtain ⟨k, hk, he⟩ := List.mem_map.mp hm
      have hk2 := List.mem_filter.mp hk
      exact ⟨k, hk2.1, by simpa using hk2.2, by rw [take_min_length]; exact he⟩
    · rintro ⟨k, hk, hh, he⟩
      refine List.mem_map.mpr ⟨k, List.mem_filter.mpr ⟨hk, by simpa using hh⟩, ?_⟩
      rw [← take_min_length]; exact he
  rw [hlook]
  by_cases hq : q ∈ (keys.filter (fun k => h k = h q)).map strncpyData
  · simp only [hq, if_true]
    refine ⟨⟨fun _ => hmem.mp hq, fun _ => ⟨q, rfl⟩⟩, ?_, Or.inr trivial⟩
    intro d hd
    injection hd with hd
    injection hd with hd
    exact hd.symm
  · simp only [hq, if_false]
    refine ⟨⟨?_, fun hex => absurd (hmem.mpr hex) hq⟩, ?_, Or.inl trivial⟩
    · rintro ⟨d, hd⟩
      injection hd with hd
      exact absurd hd (by simp)
    · intro d hd
      injection hd with hd
      exact absurd hd (by simp)

/-- Witness of C18: in the sample table `dog` is found, being an inserted key. -/
theorem lookup_iff_inserted_witness :
    (∃ d, hashTableLookup sampleState ['d', 'o', 'g'] = .ok (some d)) ↔
      ∃ k ∈ sampleKeys, lengthHash k = lengthHash ['d', 'o', 'g'] ∧
        k.take (min k.length 127) = ['d', 'o', 'g'] :=
  (lookup_iff_inserted initialState 10 lengthHash sampleKeys true sampleState
    ['d', 'o', 'g'] (by decide) (fun k => by unfold lengthHash; omega) rfl rfl).1

/-! The dictionary loader -/

theorem fgetsLine_snd_length (n : Nat) :
    ∀ file : List Char, (fgetsLine n file).2.length ≤ file.length := by
  induction n with
  | zero => intro file; simp [fgetsLine]
  | succ n ih =>
    intro file
    cases file with
    | nil => simp [fgetsLine]
    | cons c rest =>
      by_cases hc : c = '\n'
      · simp [fgetsLine, hc]
      · simp only [fgetsLine, hc, if_false, List.length_cons]
        have := ih rest
        omega

theorem fgetsLine_succ_snd_length (n : Nat) (c : Char) (rest : List Char) :
    (fgetsLine (n + 1) (c :: rest)).2.length ≤ rest.length := by
  by_cases hc : c = '\n'
  · simp [fgetsLine, hc]
  · simp only [fgetsLine, hc, if_false]
    exact fgetsLine_snd_length n rest

theorem fgetsAll_fuel (fuel1 : Nat) :
    ∀ (fuel2 : Nat) (file : List Char), file.length ≤ fuel1 → file.length ≤ fuel2 →
      fgetsAll fuel1 file = fgetsAll fuel2 file := by
  induction fuel1 with
  | zero =>
    intro fuel2 file h1 _
    have : file = [] := List.length_eq_zero.mp (by omega)
    subst this
    cases fuel2 <;> rfl
  | succ f1 ih =>
    intro fuel2 file h1 h2
    cases file with
    | nil => cases fuel2 <;> rfl
    | cons c rest =>
      cases fuel2 with
      | zero => simp at h2
      | succ f2 =>
        simp only [List.length_cons] at h1 h2
        have hlen : (fgetsLine 31 (c :: rest)).2.length ≤ rest.length :=
          fgetsLine_succ_snd_length 30 c rest
        simp only [fgetsAll]
        rw [ih f2 _ (by omega) (by omega)]

theorem fgetsLines_cons (c : Char) (rest : List Char) :
    fgetsLines (c :: rest) =
      (fgetsLine 31 (c :: rest)).1 :: fgetsLines (fgetsLine 31 (c :: rest)).2 := by
  have hlen : (fgetsLine 31 (c :: rest)).2.length ≤ rest.length :=
    fgetsLine_succ_snd_length 30 c rest
  unfold fgetsLines
  simp only [List.length_cons, fgetsAll]
  rw [fgetsAll_fuel rest.length _ _ hlen (le_refl _)]

/-- A call of `fgets` on a file that starts with `w`, free of newlines and short enough,
followed by a newline, returns `w` with the newline. -/
theorem fgetsLine_word (w : List Char) (rest : List Char) (hnl : '\n' ∉ w) :
    ∀ n, w.length + 1 ≤ n → fgetsLine n (w ++ '\n' :: rest) = (w ++ ['\n'], rest) := by
  induction w with
  | nil =>
    intro n hn
    cases n with
    | zero => simp at hn
    | succ n => simp [fgetsLine]
  | cons c w ih =>
    intro n hn
    cases n with
    | zero => simp at hn
    | succ n =>
      have hc : c ≠ '\n' := fun e => hnl (by rw [e]; exact List.mem_cons_self _ _)
      have hw : '\n' ∉ w := fun hm => hnl (List.mem_cons_of_mem _ hm)
      simp only [List.length_cons] at hn
      have hrec := ih hw n (by omega)
      show fgetsLine (n + 1) (c :: (w ++ '\n' :: rest)) = _
      simp only [fgetsLine, hc, if_false, hrec]
      rfl

theorem strlen_of_no_nul (word : List Char) (h0 : '\x00' ∉ word) :
    strlen word = word.length := by
  unfold strlen
  congr 1
  rw [List.takeWhile_eq_self_iff]
  intro c hc
  have : c ≠ '\x00' := fun e => h0 (e ▸ hc)
  simpa using this

theorem copyWord_append_two (w : List Char) (a b : Char) (h0 : '\x00' ∉ w ++ [a, b]) :
    copyWord (w ++ [a, b]) = .ok w := by
  unfold copyWord
  rw [strlen_of_no_nul _ h0]
  simp only [List.length_append, List.length_cons, List.length_nil]
  rw [if_neg (by omega)]
  have : ((((w.length + (0 + 1 + 1) : Nat) : Int) - 2).toNat) = w.length := by omega
  rw [this, List.take_left]

theorem fgetsLines_of_ne_nil (file : List Char) (hne : file ≠ []) :
    fgetsLines file = (fgetsLine 31 file).1 :: fgetsLines (fgetsLine 31 file).2 := by
  cases file with
  | nil => exact absurd rfl hne
  | cons c rest => exact fgetsLines_cons c rest

theorem fgetsLines_word (w : List Char) (rest : List Char) (hnl : '\n' ∉ w)
    (hfit : w.length + 1 ≤ 31) :
    fgetsLines (w ++ '\n' :: rest) = (w ++ ['\n']) :: fgetsLines rest := by
  rw [fgetsLines_of_ne_nil _ (by simp), fgetsLine_word w rest hnl 31 hfit]

/-- A line made of a non-empty word without NUL and a single newline: the copy in `word2`
is the word without its last character. -/
theorem copyWord_single_newline (w : List Char) (hne : w ≠ []) (h0 : '\x00' ∉ w) :
    copyWord (w ++ ['\n']) = .ok w.dropLast := by
  have h1 : w ++ ['\n'] = w.dropLast ++ [w.getLast hne, '\n'] := by
    conv_lhs => rw [← List.dropLast_concat_getLast hne]
    simp
  have h2 : '\x00' ∉ w.dropLast ++ [w.getLast hne, '\n'] := by
    rw [← h1]
    intro hm
    rcases List.mem_append.mp hm with hm | hm
    · exact h0 hm
    · simp at hm
  rw [h1, copyWord_append_two _ _ _ h2]

/-- A line with a NUL byte: `strlen` stops at the NUL, so of `ab`, NUL, `cd`, newline
the copy keeps `len - 2 = 0` characters. -/
theorem copyWord_nul_line :
    strlen ['a', 'b', '\x00', 'c', 'd', '\n'] = 2 ∧
    copyWord ['a', 'b', '\x00', 'c', 'd', '\n'] = .ok [] :=
  ⟨rfl, rfl⟩

/-- Claim C16, evaluated at its failing input: the file holds the word `cat` followed by a
single newline.  `fgets` reads that line whole, `strlen` is 4, the loop copies two
characters and writes the NUL at index 2, and the one call of `hashTableInsert` made for
the line receives the key `ca`, not `cat`. -/
theorem loader_single_newline_key :
    fgetsLines ['c', 'a', 't', '\n'] = [['c', 'a', 't', '\n']] ∧
    strlen ['c', 'a', 't', '\n'] = 4 ∧
    copyWord ['c', 'a', 't', '\n'] = .ok ['c', 'a'] ∧
    copyWord ['c', 'a', 't', '\n'] ≠ .ok ['c', 'a', 't'] ∧
    (∀ s c nb alloc,
      buildDictionaryLoop s (fgetsLines ['c', 'a', 't', '\n']) c nb alloc =
        match hashTableInsert s ['c', 'a'] c (alloc 0) with
        | .error e => .error e
        | .ok (_, s1, c1) =>
          if nb + c1 > INT_MAX then .error .intOverflow else .ok (s1, nb + c1)) ∧
    (buildDictionaryLoop (hashTableInit initialState 10 lengthHash true).2
        (fgetsLines ['c', 'a', 't', '\n']) 0 0 (fun _ => true)).map
          (fun r => (r.1.table, r.1.itemCount))
      = .ok (some [[], [], [['c', 'a']], [], [], [], [], [], [], []], 1) := by
  refine ⟨rfl, rfl, rfl, fun e => by simp [copyWord, strlen] at e, ?_, rfl⟩
  intro s c nb alloc
  have hl : fgetsLines ['c', 'a', 't', '\n'] = [['c', 'a', 't', '\n']] := rfl
  have hk : copyWord ['c', 'a', 't', '\n'] = .ok ['c', 'a'] := rfl
  rw [hl, buildDictionaryLoop, hk]
  simp only []
  cases hins : hashTableInsert s ['c', 'a'] c (alloc 0) with
  | error e => rfl
  | ok r =>
    obtain ⟨r1, s1, c1⟩ := r
    simp only []
    by_cases hov : nb + c1 > INT_MAX
    · simp only [hov, if_true]
    · simp only [hov, if_false, buildDictionaryLoop]

/-! The collision total -/

theorem countP_set_append (d : CStr) (t : List LINKED_LIST_T) :
    ∀ (i : Nat) (b : LINKED_LIST_T), t[i]? = some b →
      (t.set i (b ++ [d])).countP (fun x => !x.isEmpty) =
        t.countP (fun x => !x.isEmpty) + (if b = [] then 1 else 0) := by
  induction t with
  | nil => intro i b hb; simp at hb
  | cons a rest ih =>
    intro i b hb
    cases i with
    | zero =>
      simp only [List.getElem?_cons_zero, Option.some.injEq] at hb
      subst hb
      cases a with
      | nil => simp [List.countP_cons]
      | cons x xs => simp [List.countP_cons]
    | succ j =>
      simp only [List.getElem?_cons_succ] at hb
      simp only [List.set_cons_succ, List.countP_cons, ih j b hb]
      omega

theorem countP_replicate_nil (n : Nat) :
    (List.replicate n ([] : LINKED_LIST_T)).countP (fun x => !x.isEmpty) = 0 := by
  rw [List.countP_eq_zero]
  intro b hb
  rw [(List.mem_replicate.mp hb).2]
  simp

theorem insertKeysFlags_cons (s : State) (key : CStr) (rest : List CStr) (c : Int)
    (s2 : State) (flags : List Int)
    (hi : insertKeysFlags s (key :: rest) c = some (s2, flags)) :
    ∃ s1 c1 fl, hashTableInsert s key c true = .ok (1, s1, c1) ∧
      insertKeysFlags s1 rest c1 = some (s2, fl) ∧ flags = c1 :: fl := by
  unfold insertKeysFlags at hi
  split at hi
  · next s1 c1 heq =>
    cases hrec : insertKeysFlags s1 rest c1 with
    | none => rw [hrec] at hi; simp at hi
    | some r =>
      rw [hrec] at hi
      simp only [Option.map_some', Option.some.injEq, Prod.mk.injEq] at hi
      exact ⟨s1, c1, r.2, heq, by rw [← hi.1, hrec], hi.2.symm⟩
  · exact absurd hi (by simp)

theorem hashTableInsert_table (s : State) (h : CStr → Nat) (t : List LINKED_LIST_T)
    (key : CStr) (c : Int) (alloc : Bool) (s1 : State) (c1 : Int) (hr : Ready s h t)
    (hi : hashTableInsert s key c alloc = .ok (1, s1, c1)) :
    ∃ old, t[h key]? = some old ∧
      Ready s1 h (t.set (h key) (old ++ [strncpyData key])) ∧
      c1 = (if old = [] then 0 else 1) ∧
      hashTableInsert s key 0 true = .ok (1, s1, c1) := by
  obtain ⟨hf, ht, hlt⟩ := hr
  rcases hashTableInsert_cases s key c alloc 1 s1 c1 hi with
    ⟨h0, _⟩ | ⟨_, _, hc, t0, h0, old, ht0, hf0, hb, hs1, hc1⟩
  · exact absurd h0 (by decide)
  · rw [ht] at ht0
    rw [hf] at hf0
    injection ht0 with ht0
    injection hf0 with hf0
    subst ht0
    subst hf0
    obtain ⟨b2, hb2, hi0⟩ := hashTableInsert_ready s h t key 0 ⟨hf, ht, hlt⟩ hc
    rw [hb] at hb2
    injection hb2 with hb2
    subst hb2
    refine ⟨old, hb, ⟨by rw [hs1]; exact hf, by rw [hs1], ?_⟩, hc1, by rw [hi0, hs1, hc1]⟩
    intro k
    rw [List.length_set]
    exact hlt k

/-- The flags of a run of inserts into a ready table whose non-empty buckets are the
members of `S`: each flag is 0 or 1, the flags equal to 1 and the buckets that became
non-empty add up to the number of inserts, and the non-empty buckets afterwards are `S`
together with the hash values of the keys. -/
theorem insertKeysFlags_spec (h : CStr → Nat) (keys : List CStr) :
    ∀ (s : State) (t : List LINKED_LIST_T) (c : Int) (s2 : State) (flags : List Int)
      (S : Finset Nat), Ready s h t → (∀ i, t[i]?.getD [] ≠ [] ↔ i ∈ S) →
      insertKeysFlags s keys c = some (s2, flags) →
      insertKeys s keys = some s2 ∧ flags.length = keys.length ∧
      (∀ f ∈ flags, f = 0 ∨ f = 1) ∧ flags.sum = (flags.count 1 : Int) ∧
      ∃ t2, s2.table = some t2 ∧
        flags.count 1 + t2.countP (fun x => !x.isEmpty) =
          keys.length + t.countP (fun x => !x.isEmpty) ∧
        t2.countP (fun x => !x.isEmpty) + S.card =
          t.countP (fun x => !x.isEmpty) + (S ∪ (keys.map h).toFinset).card := by
  induction keys with
  | nil =>
    intro s t c s2 flags S hr _ hi
    simp only [insertKeysFlags, Option.some.injEq, Prod.mk.injEq] at hi
    obtain ⟨hs, hf⟩ := hi
    subst hs
    subst hf
    exact ⟨rfl, rfl, by simp, by simp, t, hr.2.1, by simp, by simp⟩
  | cons key rest ih =>
    intro s t c s2 flags S hr hS hi
    obtain ⟨s1, c1, fl, h1, h2, hfl⟩ := insertKeysFlags_cons s key rest c s2 flags hi
    obtain ⟨old, hold, hr1, hc1, h10⟩ := hashTableInsert_table s h t key c true s1 c1 hr h1
    have hlt : h key < t.length := hr.2.2 key
    have hS1 : ∀ i, (t.set (h key) (old ++ [strncpyData key]))[i]?.getD [] ≠ [] ↔
        i ∈ insert (h key) S := by
      intro i
      rw [Finset.mem_insert, ← hS i]
      by_cases hik : i = h key
      · subst hik
        simp [List.getElem?_set, hlt]
      · have hne : ¬ h key = i := fun e => hik e.symm
        simp [List.getElem?_set, hne, hik]
    obtain ⟨hk, hlen, h01, hsum, t2, ht2, hcnt, hcard⟩ :=
      ih s1 _ c1 s2 fl (insert (h key) S) hr1 hS1 h2
    have hstep := countP_set_append (strncpyData key) t (h key) old hold
    have hold_iff : old = [] ↔ h key ∉ S := by
      have := hS (h key)
      rw [hold, Option.getD_some] at this
      constructor
      · intro e hm; exact (this.mpr hm) e
      · intro hn; by_contra hne; exact hn (this.mp hne)
    have hunion : insert (h key) S ∪ (rest.map h).toFinset =
        S ∪ ((key :: rest).map h).toFinset := by
      rw [List.map_cons, List.toFinset_cons, Finset.union_insert, Finset.insert_union]
    rw [hunion] at hcard
    subst hfl
    refine ⟨?_, ?_, ?_, ?_, t2, ht2, ?_, ?_⟩
    · unfold insertKeys
      rw [h10]
      exact hk
    · simp [hlen]
    · intro f hf
      rcases List.mem_cons.mp hf with hf | hf
      · rw [hf, hc1]
        by_cases ho : old = [] <;> simp [ho]
      · exact h01 f hf
    · by_cases ho : old = []
      · have hc0 : c1 = 0 := by rw [hc1, if_pos ho]
        subst hc0
        simp [List.count_cons, hsum]
      · have hc0 : c1 = 1 := by rw [hc1, if_neg ho]
        subst hc0
        simp [List.count_cons, hsum]
        ring
    · by_cases ho : old = []
      · have hc0 : c1 = 0 := by rw [hc1, if_pos ho]
        subst hc0
        rw [hstep, if_pos ho] at hcnt
        simp only [List.length_cons]
        simp [List.count_cons]
        omega
      · have hc0 : c1 = 1 := by rw [hc1, if_neg ho]
        subst hc0
        rw [hstep, if_neg ho] at hcnt
        simp only [List.length_cons]
        simp [List.count_cons]
        omega
    · by_cases ho : old = []
      · rw [hstep, if_pos ho, Finset.card_insert_of_not_mem (hold_iff.mp ho)] at hcard
        omega
      · have hm : h key ∈ S := by
          by_contra hn
          exact ho (hold_iff.mpr hn)
        rw [hstep, if_neg ho, Finset.card_insert_of_mem hm] at hcard
        omega

/-- The loop of `buildDictionary` over lines whose copies are `keys`, when every insert
returns 1: the state is that of the run of inserts and `nb_col` grows by the sum of the
collision flags. -/
theorem buildDictionaryLoop_flags (keys : List CStr) :
    ∀ (s : State) (c nb : Int) (s2 : State) (flags : List Int) (lines : List CStr),
      lines.map copyWord = keys.map Except.ok →
      insertKeysFlags s keys c = some (s2, flags) → nb + flags.sum ≤ INT_MAX →
      buildDictionaryLoop s lines c nb (fun _ => true) = .ok (s2, nb + flags.sum) := by
  induction keys with
  | nil =>
    intro s c nb s2 flags lines hl hi _
    have : lines = [] := by simpa using hl
    subst this
    simp only [insertKeysFlags, Option.some.injEq, Prod.mk.injEq] at hi
    obtain ⟨hs, hf⟩ := hi
    subst hs
    subst hf
    simp [buildDictionaryLoop]
  | cons key rest ih =>
    intro s c nb s2 flags lines hl hi hle
    cases lines with
    | nil => simp at hl
    | cons l ls =>
      simp only [List.map_cons, List.cons.injEq] at hl
      obtain ⟨hl1, hl2⟩ := hl
      obtain ⟨s1, c1, fl, h1, h2, hfl⟩ := insertKeysFlags_cons s key rest c s2 flags hi
      subst hfl
      have hc1 : c1 = 0 ∨ c1 = 1 := by
        rcases hashTableInsert_cases s key c true 1 s1 c1 h1 with
          ⟨h0, _⟩ | ⟨_, _, _, _, _, bucket, _, _, _, _, hc⟩
        · exact absurd h0 (by decide)
        · rw [hc]; by_cases hb : bucket = [] <;> simp [hb]
      have hfl0 : 0 ≤ fl.sum := by
        have hnn : ∀ (s1 : State) (c1 : Int) (fl : List Int),
            insertKeysFlags s1 rest c1 = some (s2, fl) → 0 ≤ fl.sum := by
          clear ih hl2 h2 hle hc1 h1 hi
          induction rest with
          | nil =>
            intro s1 c1 fl hi
            simp only [insertKeysFlags, Option.some.injEq, Prod.mk.injEq] at hi
            rw [← hi.2]; simp
          | cons k2 r2 ih2 =>
            intro s1 c1 fl hi
            obtain ⟨s3, c3, fl3, h3, h4, hfl3⟩ := insertKeysFlags_cons s1 k2 r2 c1 s2 fl hi
            have hc3 : 0 ≤ c3 := by
              rcases hashTableInsert_cases s1 k2 c1 true 1 s3 c3 h3 with
                ⟨h0, _⟩ | ⟨_, _, _, _, _, bucket, _, _, _, _, hc⟩
              · exact absurd h0 (by decide)
              · rw [hc]; by_cases hb : bucket = [] <;> simp [hb]
            have := ih2 s3 c3 fl3 h4
            rw [hfl3, List.sum_cons]
            omega
        exact hnn s1 c1 fl h2
      rw [List.sum_cons] at hle
      rw [buildDictionaryLoop, hl1]
      simp only [h1]
      rw [if_neg (by omega), ih s1 c1 (nb + c1) s2 fl ls hl2 h2 (by omega), List.sum_cons]
      congr 2
      ring

/-- Claim C19: after a successful `hashTableInit(size, h)` with `size >= 1` and `h` in range
and `n` successful inserts, the number of inserts that reported a collision (which is also
the sum of the flags, as accumulated in `nb_col`) equals `n` minus the number of non-empty
buckets afterwards, and that number of buckets is the number of distinct values `h(k)` over
the inserted keys. -/
theorem collision_total (s0 : State) (size : Int) (h : CStr → Nat) (keys : List CStr)
    (alloc : Bool) (c : Int) (s2 : State) (flags : List Int)
    (hsize : 1 ≤ size) (hrange : ∀ k, (h k : Int) < size)
    (hinit : (hashTableInit s0 size h alloc).1 = 1)
    (hins : insertKeysFlags (hashTableInit s0 size h alloc).2 keys c = some (s2, flags)) :
    flags.length = keys.length ∧ (∀ f ∈ flags, f = 0 ∨ f = 1) ∧
    (flags.count 1 : Int) = (keys.length : Int) - (nonEmptyBuckets s2 : Int) ∧
    nonEmptyBuckets s2 = (keys.map h).toFinset.card ∧
    flags.sum = (flags.count 1 : Int) := by
  have _ := hsize
  have ha := hashTableInit_alloc s0 size h alloc hinit
  subst ha
  have hS : ∀ i, (List.replicate size.toNat ([] : LINKED_LIST_T))[i]?.getD [] ≠ [] ↔
      i ∈ (∅ : Finset Nat) := by
    intro i
    rw [getElem?_replicate_nil_getD]
    simp
  obtain ⟨_, hlen, h01, hsum, t2, ht2, hcnt, hcard⟩ :=
    insertKeysFlags_spec h keys _ _ c s2 flags ∅ (hashTableInit_ready s0 size h hrange) hS hins
  have hne : nonEmptyBuckets s2 = t2.countP (fun x => !x.isEmpty) := by
    unfold nonEmptyBuckets; rw [ht2]
  rw [countP_replicate_nil] at hcnt hcard
  simp only [Finset.card_empty, Finset.empty_union, Nat.add_zero, Nat.zero_add] at hcard
  refine ⟨hlen, h01, ?_, ?_, hsum⟩
  · rw [hne]; omega
  · rw [hne]; exact hcard

/-- Witness of C19: in the sample run only the insert of `dog` collides; three inserts fill
two buckets, for the two hash values 3 and 5. -/
theorem collision_total_witness :
    ([0, 1, 0] : List Int).length = sampleKeys.length ∧
    (∀ f ∈ ([0, 1, 0] : List Int), f = 0 ∨ f = 1) ∧
    ((([0, 1, 0] : List Int).count 1 : Nat) : Int) =
      (sampleKeys.length : Int) - (nonEmptyBuckets sampleState : Int) ∧
    nonEmptyBuckets sampleState = (sampleKeys.map lengthHash).toFinset.card ∧
    ([0, 1, 0] : List Int).sum = ((([0, 1, 0] : List Int).count 1 : Nat) : Int) :=
  collision_total initialState 10 lengthHash sampleKeys true 0 sampleState [0, 1, 0]
    (by decide) (fun k => by unfold lengthHash; omega) rfl rfl

end ChainedHashTable
